import Mathlib

/-!
# Museum tracker: name normalisation, donation extraction and reconciliation

A shallow embedding of `src/server.js` (`normalizeName`, `selectProfile` and the `/api/museum`
handler from the point where the upstream museum JSON has been fetched), of the `normalizeName`
of `src/scripts/parse_wiki_museum_items.js`, and the properties their specification states.

How JavaScript is embedded:

* Strings are sequences of UTF-16 code units, embedded as `List Nat`. Regular expressions
  without the `u` flag work on code units, which is why the embedding does not use Lean's
  `String` (a sequence of Unicode scalar values).
* A plain object used as a dictionary is the list of its own properties, in `Object.keys` order.
  A lookup `o[k]` on such an object also finds the properties inherited from
  `Object.prototype`; the lookups of the handler are embedded with them.
* A `Set` is the list of its elements in insertion order.
* Counts are natural numbers (the numbers of JavaScript are exact below `2 ^ 53`); the quotient
  and the product of the completion percentage are IEEE 754 doubles with their rounding.
* A thrown exception is an error of `Except`: the handler's outer `catch` answers 500.
* JSON values in the positions of names are `null` or strings.
-/

namespace Museum

/-! ## Strings and values -/

/-- A JavaScript string: its UTF-16 code units. -/
abbrev JsString := List Nat

/-- UTF-16 encoding of one Unicode scalar value. -/
def utf16 (c : Char) : List Nat :=
  if c.toNat < 0x10000 then [c.toNat]
  else [0xD800 + (c.toNat - 0x10000) / 0x400, 0xDC00 + (c.toNat - 0x10000) % 0x400]

/-- The JavaScript string written by a Lean string literal. -/
def js (s : String) : JsString := s.data.flatMap utf16

/-- A JSON value in a position where the handler expects a name: `null` (also standing for an
absent field, `undefined`) or a string. Other JSON values in these positions are outside the
embedding. -/
inductive JsVal where
  | null
  | str (s : JsString)
  deriving DecidableEq, Repr

/-- JavaScript truthiness of a name value: `null` and `''` are falsy. -/
def JsVal.truthy : JsVal → Bool
  | .null => false
  | .str s => !s.isEmpty

/-! ## `normalizeName` (server.js, lines 10-19) -/

/-- Lower-casing of one code unit, as `String.prototype.toLowerCase` does it. The ASCII capitals
map to their small letters; U+0130 maps to `i` followed by U+0307 and U+212A (the Kelvin sign)
maps to `k`: these are the only code units outside ASCII whose lower-case form contains an ASCII
character. Every other code unit is left as it is: ECMAScript maps it to code units that are
again outside ASCII, are line terminators exactly when the original is, and are U+0E22 or U+0E07
only when the original is, so the later steps of `normalizeName` cannot tell the difference. -/
def lowerUnit (c : Nat) : List Nat :=
  if 65 ≤ c ∧ c ≤ 90 then [c + 32]
  else if c = 0x130 then [0x69, 0x307]
  else if c = 0x212A then [0x6B]
  else [c]

/-- Embedding of `.toLowerCase()`. -/
def toLowerCase (s : JsString) : JsString := s.flatMap lowerUnit

/-- Line terminators, the code units the regular-expression atom `.` does not match. -/
def isLineTerminator (c : Nat) : Bool :=
  c == 0x0A || c == 0x0D || c == 0x2028 || c == 0x2029

/-- Does the regular expression of line 14 match at the head of the string? In the source file
the expression consists of the two characters U+0E22 and U+0E07 followed by `.`. -/
def colorCodeAt : JsString → Bool
  | a :: b :: c :: _ => a == 0x0E22 && b == 0x0E07 && !isLineTerminator c
  | _ => false

/-- Global replacement of the matches by the empty string: `stripFrom k s` first drops `k` code
units (the rest of a match), then scans from left to right. -/
def stripFrom : Nat → JsString → JsString
  | _, [] => []
  | k + 1, _ :: rest => stripFrom k rest
  | 0, a :: rest =>
    if colorCodeAt (a :: rest) then stripFrom 2 rest else a :: stripFrom 0 rest

/-- Embedding of line 14, the replacement of every match of the colour-code expression by `''`. -/
def stripColorCodes (s : JsString) : JsString := stripFrom 0 s

/-- Embedding of `.replace(/_/g, ' ')`. -/
def underscoresToSpaces (s : JsString) : JsString :=
  s.map fun c => if c = 95 then 32 else c

/-- The characters `a-z` and `0-9`. -/
def isAlnum (c : Nat) : Bool :=
  (decide (97 ≤ c) && decide (c ≤ 122)) || (decide (48 ≤ c) && decide (c ≤ 57))

/-- The character class `[a-z0-9 ]`. -/
def isAllowed (c : Nat) : Bool := isAlnum c || c == 32

/-- The class `\s`, which is also what `trim` removes: white space and line terminators. -/
def isWhiteSpace (c : Nat) : Bool :=
  (decide (9 ≤ c) && decide (c ≤ 13)) || c == 0x20 || c == 0xA0 || c == 0x1680 ||
  (decide (0x2000 ≤ c) && decide (c ≤ 0x200A)) || c == 0x2028 || c == 0x2029 ||
  c == 0x202F || c == 0x205F || c == 0x3000 || c == 0xFEFF

/-- Embedding of `.replace(/[p]+/g, ' ')`: every maximal run of code units satisfying `p` becomes
one space. The flag says whether the previous code unit belonged to a run. -/
def replaceRuns (p : Nat → Bool) : Bool → JsString → JsString
  | _, [] => []
  | inRun, c :: rest =>
    if p c then
      if inRun then replaceRuns p true rest else 32 :: replaceRuns p true rest
    else c :: replaceRuns p false rest

/-- Embedding of `.trim()`. -/
def trim (s : JsString) : JsString :=
  (s.dropWhile isWhiteSpace).rdropWhile isWhiteSpace

/-- Embedding of `normalizeName`: a falsy argument gives `''`, otherwise the six string
operations are applied in the order of the source. -/
def normalizeName : JsVal → JsString
  | .null => []
  | .str s =>
    if s.isEmpty then []
    else
      trim
        (replaceRuns isWhiteSpace false
          (replaceRuns (fun c => !isAllowed c) false
            (underscoresToSpaces (stripColorCodes (toLowerCase s)))))

/-! ## Canonical keys and variants of a string -/

/-- No two consecutive spaces. -/
def NoDoubleSpace (l : JsString) : Prop := List.Chain' (fun a b => ¬ (a = 32 ∧ b = 32)) l

/-- The canonical form of a key: only `a-z`, `0-9` and single inner spaces. -/
def Canonical (l : JsString) : Prop :=
  (∀ c ∈ l, isAlnum c = true ∨ c = 32) ∧ l.head? ≠ some 32 ∧ l.getLast? ≠ some 32 ∧
    NoDoubleSpace l

/-- ASCII punctuation: the printable ASCII characters other than letters, digits and space. -/
def isAsciiPunct (c : Nat) : Bool :=
  (decide (33 ≤ c) && decide (c ≤ 47)) || (decide (58 ≤ c) && decide (c ≤ 64)) ||
  (decide (91 ≤ c) && decide (c ≤ 96)) || (decide (123 ≤ c) && decide (c ≤ 126))

/-- One code unit of a variant of a string: the same code unit, an ASCII letter in the other
case, or a space where the original has an ASCII punctuation character. -/
def variantUnit (c c' : Nat) : Bool :=
  c' == c || (decide (65 ≤ c) && decide (c ≤ 90) && c' == c + 32) ||
  (decide (97 ≤ c) && decide (c ≤ 122) && c' + 32 == c) ||
  (isAsciiPunct c && c' == 32)

/-- Equal, or a space against an ASCII punctuation character. -/
def punctUnit (x y : Nat) : Prop := y = x ∨ (isAsciiPunct x = true ∧ y = 32)

/-- The characters outside `a-z` and `0-9`: what separates the words of a key. -/
def isSep (c : Nat) : Bool := !isAlnum c

/-! ## Plain objects used as dictionaries -/

/-- An error thrown inside the handler: the outer `catch` turns it into the 500 response. -/
inductive JsError where
  | typeError
  deriving DecidableEq, Repr

/-- The property names every plain object inherits from `Object.prototype`. A lookup `o[k]` on
an object literal finds these when `o` has no own property `k`; each of them is a function, or
for `__proto__` the prototype object itself, so each is truthy and none is a `Set`. -/
def objectPrototypeKeys : List JsString :=
  [js "constructor", js "__defineGetter__", js "__defineSetter__", js "hasOwnProperty",
   js "__lookupGetter__", js "__lookupSetter__", js "isPrototypeOf",
   js "propertyIsEnumerable", js "toString", js "valueOf", js "__proto__",
   js "toLocaleString"]

/-- The alias table `aliasMap`: normalised alias name to normalised base name. Only own string
properties matter: the one inherited name that is a possible key, `constructor`, yields a
function, which `donatedAll.has` never finds equal to a string. -/
abbrev AliasMap := List (JsString × JsString)

/-- The dataset `museumDataset`: its own properties in `Object.entries` order; the value of a
category is an array of item names, or `none` when it is not an array. -/
abbrev Catalog := List (JsString × Option (List JsVal))

/-- The object literal `targetCatsMap` (lines 199-205). -/
def targetCatsMap : List (JsString × JsString) :=
  [(js "Weapons", js "Weapons"), (js "Armor Sets", js "Armor Sets"),
   (js "Rarities", js "Rarities"), (js "Special", js "Special"),
   (js "Special Items", js "Special")]

/-- The value of `mappedCat`: one of the four category names, or the value inherited from
`Object.prototype` under the given property name. -/
inductive MappedCat where
  | canonical (s : JsString)
  | inherited (key : JsString)
  deriving DecidableEq, Repr

/-- Embedding of `targetCatsMap[cat] || null` (line 212). -/
def lookupTargetCat (cat : JsString) : Option MappedCat :=
  match targetCatsMap.lookup cat with
  | some s => if s.isEmpty then none else some (.canonical s)
  | none => if cat ∈ objectPrototypeKeys then some (.inherited cat) else none

/-- The text `mappedCat` contributes to the template literal of line 223. For an inherited
function it is the text of a native function. -/
def MappedCat.text : MappedCat → JsString
  | .canonical s => s
  | .inherited k =>
    if k = js "__proto__" then js "[object Object]"
    else js "function " ++ (if k = js "constructor" then js "Object" else k) ++
      js "() \x7b [native code] \x7d"

/-! ## The museum payload -/

/-- An element of an array of donated items: `null` (standing for every falsy value), a string,
or an object with its `name`, `display_name`, `item_id` and `id` fields (`null` when absent). -/
inductive Entry where
  | null
  | str (s : JsString)
  | obj (name displayName itemId id : JsVal)
  deriving DecidableEq, Repr

/-- Embedding of `a || b` on name values. -/
def JsVal.or (a b : JsVal) : JsVal := if a.truthy then a else b

/-- Embedding of lines 172 and 184:
`it?.name || it?.display_name || it?.item_id || it?.id || (typeof it === 'string' ? it : null)`. -/
def Entry.derivedName : Entry → JsVal
  | .null => .null
  | .str s => .str s
  | .obj name displayName itemId id => (((name.or displayName).or itemId).or id).or .null

/-- JavaScript truthiness of an entry, as `filter(Boolean)` tests it. -/
def Entry.truthy : Entry → Bool
  | .null => false
  | .str s => !s.isEmpty
  | .obj _ _ _ _ => true

/-- The value stored under a category of the payload: an array of entries, an object (of which
only the keys, in `Object.keys` order, are read), or anything else. -/
inductive ItemsValue where
  | array (entries : List Entry)
  | object (keys : List JsString)
  | other
  deriving DecidableEq, Repr

/-- The decimal text of an array index. -/
def indexKey (i : Nat) : JsString := (Nat.toDigits 10 i).map Char.toNat

/-- Embedding of `Object.keys(items)` for a value with `typeof items === 'object'`. -/
def ItemsValue.keys : ItemsValue → List JsString
  | .array entries => (List.range entries.length).map indexKey
  | .object keys => keys
  | .other => []

/-- The object `museumJson.profile`: `items` and `special`, `none` when absent or `null`. -/
structure ProfileSection where
  items : Option (List (JsString × ItemsValue))
  special : Option (List Entry)
  deriving DecidableEq, Repr

/-- The part of the upstream museum JSON the handler reads: `profile`, `museum.members` and
`members`. -/
structure MuseumJson where
  profile : Option ProfileSection
  museumMembers : Option (List (JsString × List (JsString × ItemsValue)))
  members : Option (List (JsString × List (JsString × ItemsValue)))
  deriving DecidableEq, Repr

/-! ## Donation extraction (server.js, lines 134-195) -/

/-- The variables the extraction updates: `donatedCount`, `categories`, `donatedByCategory`
and `donatedAll`. A `Set` is embedded as the list of its elements in insertion order. -/
structure Donations where
  donatedCount : Nat
  categories : List JsString
  donatedByCategory : List (JsString × List JsString)
  donatedAll : List JsString
  deriving DecidableEq, Repr

/-- Embedding of `Set.prototype.add`. -/
def setAdd (s : List JsString) (x : JsString) : List JsString :=
  if x ∈ s then s else s ++ [x]

/-- Adding a name to the set stored under a category that is an own property. -/
def addToCategory (cat n : JsString) :
    List (JsString × List JsString) → List (JsString × List JsString)
  | [] => []
  | (k, s) :: rest =>
    if k = cat then (k, setAdd s n) :: rest else (k, s) :: addToCategory cat n rest

/-- Is `o[k]` truthy for a plain object `o` whose own values are all truthy? It is when `k` is
an own property, and also when `k` names a property inherited from `Object.prototype`. -/
def truthyProperty {β : Type} (o : List (JsString × β)) (k : JsString) : Bool :=
  (o.lookup k).isSome || decide (k ∈ objectPrototypeKeys)

/-- Embedding of `pushName` (lines 143-152). When `donatedByCategory` has no own property
`cat` but inherits one, line 146 assigns nothing and line 147 calls `add` on a value that is
not a `Set`: a `TypeError`. -/
def pushName (aliasMap : AliasMap) (d : Donations) (cat : JsString) (name : JsVal) :
    Except JsError Donations :=
  let n := normalizeName name
  if n.isEmpty then .ok d
  else
    let byCategory :=
      if truthyProperty d.donatedByCategory cat then d.donatedByCategory
      else d.donatedByCategory ++ [(cat, [])]
    match byCategory.lookup cat with
    | none => .error .typeError
    | some _ =>
      let all := setAdd d.donatedAll n
      let all :=
        match aliasMap.lookup n with
        | some base => if base.isEmpty then all else setAdd all base
        | none => all
      .ok { d with donatedByCategory := addToCategory cat n byCategory, donatedAll := all }

/-- The state before the extraction (lines 137-141). -/
def Donations.init : Donations := ⟨0, [], [], []⟩

/-- The body of the loop over `itemKeys` (lines 162-166 and 188-192). -/
def pushKeys (aliasMap : AliasMap) (d : Donations) (k : JsString) (itemKeys : List JsString) :
    Except JsError Donations :=
  itemKeys.foldlM (fun d itemKey => pushName aliasMap d k (.str itemKey))
    { d with donatedCount := d.donatedCount + itemKeys.length }

/-- The loop over the entries of an array (lines 171-174 and 183-186), after the count has been
updated. -/
def pushEntries (aliasMap : AliasMap) (d : Donations) (k : JsString) (entries : List Entry) :
    Except JsError Donations :=
  entries.foldlM (fun d it => pushName aliasMap d k it.derivedName) d

/-- The body of the loop over `itemCats` (lines 160-167); `k` and `itemsObj[k]` are the two
components of the entry. -/
def profileStep (aliasMap : AliasMap) (d : Donations) (entry : JsString × ItemsValue) :
    Except JsError Donations :=
  match entry.2 with
  | .other => pure d
  | items => pushKeys aliasMap d entry.1 items.keys

/-- Variant A (lines 155-175): `museumJson.profile.items` and `museumJson.profile.special`. -/
def extractProfile (aliasMap : AliasMap) (profile : ProfileSection) : Except JsError Donations :=
  let itemsObj := profile.items.getD []
  let specialArr := profile.special.getD []
  let itemCats := itemsObj.map Prod.fst
  let start : Donations :=
    { Donations.init with categories := if itemCats.length ≠ 0 then itemCats else [] }
  do
    let d ← itemsObj.foldlM (profileStep aliasMap) start
    pushEntries aliasMap { d with donatedCount := d.donatedCount + specialArr.length }
      (js "special") specialArr

/-- The body of the loop over `catKeys` (lines 180-193); `k` and `museumMember[k]` are the two
components of the entry. -/
def memberStep (aliasMap : AliasMap) (d : Donations) (entry : JsString × ItemsValue) :
    Except JsError Donations :=
  match entry.2 with
  | .array items =>
    pushEntries aliasMap
      { d with donatedCount := d.donatedCount + (items.filter Entry.truthy).length }
      entry.1 items
  | .object keys => pushKeys aliasMap d entry.1 keys
  | .other => pure d

/-- Variant B (lines 177-194): the member entry of the museum. -/
def extractMember (aliasMap : AliasMap) (museumMember : List (JsString × ItemsValue)) :
    Except JsError Donations :=
  museumMember.foldlM (memberStep aliasMap)
    { Donations.init with categories := museumMember.map Prod.fst }

/-- Embedding of line 134: every hyphen of `uuid` is removed. -/
def stripHyphens (uuid : JsString) : JsString := uuid.filter fun c => c != 45

/-- Embedding of `members?.[memberKey]` for a map of member objects (`none` when the map is
absent): the own property, or, for a name inherited from `Object.prototype`, the inherited
function or object, which is truthy and has no own enumerable keys and so behaves as the empty
member object. -/
def memberAt (table : Option (List (JsString × List (JsString × ItemsValue))))
    (memberKey : JsString) : Option (List (JsString × ItemsValue)) :=
  match table with
  | none => none
  | some t =>
    match t.lookup memberKey with
    | some m => some m
    | none => if memberKey ∈ objectPrototypeKeys then some [] else none

/-- Embedding of line 135: `museumJson?.museum?.members?.[memberKey] ||
museumJson?.members?.[memberKey] || null`. -/
def museumMemberOf (museumJson : MuseumJson) (memberKey : JsString) :
    Option (List (JsString × ItemsValue)) :=
  match memberAt museumJson.museumMembers memberKey with
  | some m => some m
  | none => memberAt museumJson.members memberKey

/-- Is `museumJson?.profile?.items || museumJson?.profile?.special` truthy (line 154)? Objects
and arrays are truthy, also when empty. -/
def hasProfileData (museumJson : MuseumJson) : Bool :=
  match museumJson.profile with
  | some p => p.items.isSome || p.special.isSome
  | none => false

/-- The donation extraction of the handler (lines 134-195). -/
def extractDonations (aliasMap : AliasMap) (museumJson : MuseumJson) (uuid : JsString) :
    Except JsError Donations :=
  let memberKey := stripHyphens uuid
  let museumMember := museumMemberOf museumJson memberKey
  if hasProfileData museumJson then
    match museumJson.profile with
    | some profile => extractProfile aliasMap profile
    | none => pure Donations.init
  else
    match museumMember with
    | some m => extractMember aliasMap m
    | none => pure Donations.init

/-! ## Reconciliation (server.js, lines 197-231) -/

/-- An element of `missing`. A category that is not a string (an inherited function or object)
is left out of the JSON text of the response. -/
structure MissingEntry where
  category : MappedCat
  name : JsVal
  deriving DecidableEq, Repr

/-- The variables of the reconciliation loop: `totalCount`, `uniqueDatasetItems`, `seenMissing`
and `missing`. -/
structure Reconciliation where
  totalCount : Nat
  uniqueDatasetItems : List JsString
  seenMissing : List JsString
  missing : List MissingEntry
  deriving DecidableEq, Repr

/-- The state before the loop (lines 197 and 206-208). -/
def Reconciliation.init : Reconciliation := ⟨0, [], [], []⟩

/-- The body of the inner loop (lines 216-228) for one item of a category. -/
def reconcileItem (donatedAll : List JsString) (mappedCat : MappedCat) (r : Reconciliation)
    (itemName : JsVal) : Reconciliation :=
  let norm := normalizeName itemName
  let r :=
    if norm ∈ r.uniqueDatasetItems then r
    else { r with uniqueDatasetItems := r.uniqueDatasetItems ++ [norm],
                  totalCount := r.totalCount + 1 }
  if norm ∈ donatedAll then r
  else
    let key := mappedCat.text ++ js "|" ++ norm
    if key ∈ r.seenMissing then r
    else { r with missing := r.missing ++ [⟨mappedCat, itemName⟩],
                  seenMissing := r.seenMissing ++ [key] }

/-- The body of the outer loop (lines 212-229) for one category of the dataset. -/
def reconcileCategory (donatedAll : List JsString) (r : Reconciliation)
    (entry : JsString × Option (List JsVal)) : Reconciliation :=
  match lookupTargetCat entry.1 with
  | none => r
  | some mappedCat => (entry.2.getD []).foldl (reconcileItem donatedAll mappedCat) r

/-- The reconciliation loop over `Object.entries(datasetItems)` (lines 210-231). -/
def reconcile (donatedAll : List JsString) (museumDataset : Catalog) : Reconciliation :=
  museumDataset.foldl (reconcileCategory donatedAll) Reconciliation.init

/-! ## Number arithmetic of line 233

JavaScript numbers are IEEE 754 doubles. A non-negative finite double is embedded exactly, as a
numerator and a binary exponent. -/

/-- A non-negative finite double: the number `num / 2 ^ exp`. -/
structure Double where
  num : Nat
  exp : Nat
  deriving DecidableEq, Repr

/-- Number of binary digits of `n`, with fuel. -/
def bitLenAux : Nat → Nat → Nat
  | 0, _ => 0
  | fuel + 1, n => if n = 0 then 0 else bitLenAux fuel (n / 2) + 1

/-- Number of binary digits of `n`. -/
def bitLen (n : Nat) : Nat := bitLenAux n n

/-- Rounding of the quotient `n / d` to the nearest integer, a tie going to the even one. -/
def roundHalfEven (n d : Nat) : Nat :=
  let q := n / d
  let r := n % d
  if 2 * r < d then q else if d < 2 * r then q + 1 else if q % 2 = 0 then q else q + 1

/-- The binary scaling of a quotient `a / b`: exponents `(up, down)` with
`2 ^ 52 ≤ (a * 2 ^ up) / (b * 2 ^ down) < 2 ^ 53`, one of them being zero. -/
def scaling (a b : Nat) : Nat × Nat :=
  let up0 := 53 + bitLen b - bitLen a
  let down0 := bitLen a - (53 + bitLen b)
  let big := decide (2 ^ 53 * (b * 2 ^ down0) ≤ a * 2 ^ up0)
  (if big then up0 - 1 else up0, if big && up0 == 0 then down0 + 1 else down0)

/-- The double nearest to the rational `a / b` (for `0 < b`), ties to the even significand, as
IEEE 754 rounds every arithmetic result. The significand has 53 bits; the exponent range of
doubles (results below `2 ^ -1022` or above `2 ^ 1023`) is not modelled, as the quotients and
products of line 233 are far from it. -/
def roundToDouble (a b : Nat) : Double :=
  if a = 0 then ⟨0, 0⟩
  else
    let up := (scaling a b).1
    let down := (scaling a b).2
    ⟨roundHalfEven (a * 2 ^ up) (b * 2 ^ down) * 2 ^ down, up⟩

/-- Embedding of `x / y` for two integers that are doubles themselves (below `2 ^ 53`). -/
def divide (x y : Nat) : Double := roundToDouble x y

/-- Embedding of `x * 100`. -/
def timesHundred (x : Double) : Double := roundToDouble (x.num * 100) (2 ^ x.exp)

/-- Embedding of `Math.round` on a non-negative double: the nearest integer, a tie going to the
larger one. -/
def mathRound (x : Double) : Nat := (2 * x.num + 2 ^ x.exp) / (2 * 2 ^ x.exp)

/-! ## The response (server.js, lines 233-245) -/

/-- The `counts` object of the response. -/
structure Counts where
  donated : Nat
  total : Option Nat
  completionPct : Option Nat
  deriving DecidableEq, Repr

/-- The JSON response of a successful request, without `success`, `profileId` and `raw`, which
do not depend on the reconciliation. -/
structure Response where
  categories : List JsString
  counts : Counts
  missing : List MissingEntry
  hints : List String
  deriving DecidableEq, Repr

/-- Embedding of line 233. -/
def completionPct (donatedCount size : Nat) : Option Nat :=
  if size > 0 then some (mathRound (timesHundred (divide donatedCount size))) else none

/-- The handler from line 134 on: the response for a dataset, an alias table, the museum JSON
fetched from upstream and the `uuid` of the request. An error stands for the 500 response of
the outer `catch`. -/
def museumResponse (museumDataset : Catalog) (aliasMap : AliasMap) (museumJson : MuseumJson)
    (uuid : JsString) : Except JsError Response := do
  let d ← extractDonations aliasMap museumJson uuid
  let r := reconcile d.donatedAll museumDataset
  let size := r.uniqueDatasetItems.length
  pure
    { categories := d.categories
      counts :=
        { donated := d.donatedCount
          total := if size > 0 then some size else none
          completionPct := completionPct d.donatedCount size }
      missing := r.missing
      hints :=
        if size = 0 then
          ["Completion percentage requires a populated dataset; currently using raw donations only."]
        else [] }

deriving instance DecidableEq for Except

/-! ## Notions used by the statements -/

/-- Replacing the count of a state. -/
def Donations.withCount (k : Nat) (d : Donations) : Donations := { d with donatedCount := k }

/-- The calls of `pushName` for one array of entries under a category. -/
def entryPushes (k : JsString) (entries : List Entry) : List (JsString × JsVal) :=
  entries.map fun it => (k, it.derivedName)

/-- The calls of `pushName` for the keys of one object under a category. -/
def keyPushes (k : JsString) (keys : List JsString) : List (JsString × JsVal) :=
  keys.map fun itemKey => (k, JsVal.str itemKey)

/-- The calls of `pushName` Variant A makes, in order: category and name. -/
def profilePushes (profile : ProfileSection) : List (JsString × JsVal) :=
  (profile.items.getD []).flatMap (fun entry => keyPushes entry.1 entry.2.keys) ++
    entryPushes (js "special") (profile.special.getD [])

/-- The calls of `pushName` Variant B makes for one category. -/
def memberEntryPushes (entry : JsString × ItemsValue) : List (JsString × JsVal) :=
  match entry.2 with
  | .array items => entryPushes entry.1 items
  | .object keys => keyPushes entry.1 keys
  | .other => []

/-- The calls of `pushName` Variant B makes, in order: category and name. -/
def memberPushes (museumMember : List (JsString × ItemsValue)) : List (JsString × JsVal) :=
  museumMember.flatMap memberEntryPushes

/-- The calls of `pushName` the extraction makes for a payload, in order. -/
def pushes (museumJson : MuseumJson) (uuid : JsString) : List (JsString × JsVal) :=
  if hasProfileData museumJson then
    match museumJson.profile with
    | some profile => profilePushes profile
    | none => []
  else
    match museumMemberOf museumJson (stripHyphens uuid) with
    | some m => memberPushes m
    | none => []

/-- The step of the flattened extraction loop: one call of `pushName`. -/
def pushStep (aliasMap : AliasMap) (d : Donations) (p : JsString × JsVal) :
    Except JsError Donations := pushName aliasMap d p.1 p.2

/-- What lines 150-151 add to `donatedAll`: the base of an alias, when it is truthy. -/
def addAlias (aliasMap : AliasMap) (n : JsString) (all : List JsString) : List JsString :=
  match aliasMap.lookup n with
  | some base => if base.isEmpty then all else setAdd all base
  | none => all

/-- What Variant A adds to `donatedCount`: the number of keys of every category value that is
an object (for an array, its indices), plus the length of the `special` array. -/
def profileCount (profile : ProfileSection) : Nat :=
  ((profile.items.getD []).map fun entry => entry.2.keys.length).sum +
    (profile.special.getD []).length

/-- What Variant B adds to `donatedCount` for one category: for an array the number of its
truthy entries, for an object the number of its keys. -/
def memberEntryCount (entry : JsString × ItemsValue) : Nat :=
  match entry.2 with
  | .array items => (items.filter Entry.truthy).length
  | .object keys => keys.length
  | .other => 0

/-- What Variant B adds to `donatedCount`. -/
def memberCount (museumMember : List (JsString × ItemsValue)) : Nat :=
  (museumMember.map memberEntryCount).sum

/-- The donated count the extraction computes for a payload. -/
def countedSlots (museumJson : MuseumJson) (uuid : JsString) : Nat :=
  if hasProfileData museumJson then
    match museumJson.profile with
    | some profile => profileCount profile
    | none => 0
  else
    match museumMemberOf museumJson (stripHyphens uuid) with
    | some m => memberCount m
    | none => 0

/-- The categories the extraction observes in a payload. -/
def observedCategories (museumJson : MuseumJson) (uuid : JsString) : List JsString :=
  if hasProfileData museumJson then
    match museumJson.profile with
    | some profile => (profile.items.getD []).map Prod.fst
    | none => []
  else
    match museumMemberOf museumJson (stripHyphens uuid) with
    | some m => m.map Prod.fst
    | none => []

/-- The state in which the flattened extraction loop starts. -/
def startState (museumJson : MuseumJson) (uuid : JsString) : Donations :=
  { Donations.init with categories := observedCategories museumJson uuid }

/-- The set stored under a category, empty when the category is not an own property. -/
def Donations.bucket (d : Donations) (k : JsString) : List JsString :=
  (d.donatedByCategory.lookup k).getD []

/-- Is the category an own property of `donatedByCategory`? -/
def Donations.hasCategory (d : Donations) (k : JsString) : Bool :=
  (d.donatedByCategory.lookup k).isSome

/-- What a call `pushName(cat, name)` puts into `donatedAll`: the key of the name when it is
not empty, and the truthy base the alias table gives for that key. -/
def Contributes (aliasMap : AliasMap) (name : JsVal) (x : JsString) : Prop :=
  normalizeName name ≠ [] ∧
    (x = normalizeName name ∨ (aliasMap.lookup (normalizeName name) = some x ∧ x ≠ []))

/-- A call `pushName(cat, name)` that throws in a state: the key is not empty and the category
is inherited and not own. -/
def Throws (d : Donations) (p : JsString × JsVal) : Prop :=
  normalizeName p.2 ≠ [] ∧ p.1 ∈ objectPrototypeKeys ∧ d.hasCategory p.1 = false

/-! ## The statements of the specification -/

/-- The donated count as the specification states it: in Variant A the sizes of the category
maps plus the length of the special array, in Variant B the lengths of the category arrays or
the sizes of the category maps. -/
def claimedSlots (museumJson : MuseumJson) (uuid : JsString) : Nat :=
  if hasProfileData museumJson then
    match museumJson.profile with
    | some profile => profileCount profile
    | none => 0
  else
    match museumMemberOf museumJson (stripHyphens uuid) with
    | some m =>
      (m.map fun entry =>
        match entry.2 with
        | .array items => items.length
        | .object keys => keys.length
        | .other => 0).sum
    | none => 0

/-- An entry that yields no usable name: `null`, the empty string, or an object none of whose
fields `name`, `display_name`, `item_id`, `id` is a non-empty string. -/
def Entry.noUsableName : Entry → Bool
  | .null => true
  | .str s => s.isEmpty
  | .obj name displayName itemId id =>
    !name.truthy && !displayName.truthy && !itemId.truthy && !id.truthy

/-- The entry `{name: n}`. -/
def nameEntry (n : JsString) : Entry := .obj (.str n) .null .null .null

/-- The identifier `uuid` is the text `key` with hyphens put in: read without its hyphens
`uuid` gives `key`, unit by unit, and `key` has no hyphen. -/
def hyphenatedFrom : JsString → JsString → Bool
  | key, [] => key.isEmpty
  | key, u :: rest =>
    if u = 45 then hyphenatedFrom key rest
    else
      match key with
      | [] => false
      | k :: key => k == u && hyphenatedFrom key rest

/-- The payload in "member" shape whose member map has the one key `key`, the member entry
under it mapping the category `c` to the array of the entries `{name: n}`; the member map is
`museum.members` when `nested` and `members` otherwise. -/
def memberShapePayload (nested : Bool) (key c : JsString) (ns : List JsString) : MuseumJson :=
  let table := [(key, [(c, ItemsValue.array (ns.map nameEntry))])]
  if nested then { profile := none, museumMembers := some table, members := none }
  else { profile := none, museumMembers := none, members := some table }

/-- The payload in "profile" shape whose `profile.items` maps the category `c` to an object
with the keys `ks`. -/
def profileShapePayload (c : JsString) (ks : List JsString) : MuseumJson :=
  { profile := some { items := some [(c, .object ks)], special := none },
    museumMembers := none, members := none }

/-- Two extraction results are the same: both throw, or both return the same observed
categories, the same global set and the same set under every category. -/
def SameExtraction (r₁ r₂ : Except JsError Donations) : Prop :=
  match r₁, r₂ with
  | .ok d₁, .ok d₂ =>
    d₁.categories = d₂.categories ∧ (∀ x, x ∈ d₁.donatedAll ↔ x ∈ d₂.donatedAll) ∧
    (∀ k, d₁.hasCategory k = d₂.hasCategory k) ∧ (∀ k x, x ∈ d₁.bucket k ↔ x ∈ d₂.bucket k)
  | .error e₁, .error e₂ => e₁ = e₂
  | _, _ => False

/-- A member payload with one category `w` holding `null`, `''`, `{}` and `{name: "Sword B"}`. -/
def slotsPayload : MuseumJson :=
  { profile := none, museumMembers := none,
    members := some [(js "u", [(js "w", .array
      [.null, .str [], .obj .null .null .null .null, nameEntry (js "Sword B")])])] }

/-- The response of a request whose extraction returns. -/
def responseOf (museumDataset : Catalog) (d : Donations) : Response :=
  { categories := d.categories
    counts :=
      { donated := d.donatedCount
        total :=
          if (reconcile d.donatedAll museumDataset).uniqueDatasetItems.length > 0 then
            some (reconcile d.donatedAll museumDataset).uniqueDatasetItems.length
          else none
        completionPct := completionPct d.donatedCount
          (reconcile d.donatedAll museumDataset).uniqueDatasetItems.length }
    missing := (reconcile d.donatedAll museumDataset).missing
    hints :=
      if (reconcile d.donatedAll museumDataset).uniqueDatasetItems.length = 0 then
        ["Completion percentage requires a populated dataset; currently using raw donations only."]
      else [] }

/-! ## Concrete inputs -/

/-- A payload in "member" shape for the identifier `u`: one category `w` with the given array of
entries. -/
def memberPayload (entries : List Entry) : MuseumJson :=
  { profile := none, museumMembers := none,
    members := some [(js "u", [(js "w", .array entries)])] }

/-- The dataset `{Weapons: [name]}`. -/
def weaponsCatalog (names : List String) : Catalog :=
  [(js "Weapons", some (names.map fun n => JsVal.str (js n)))]

/-- The alias table of the specification: "old dragon fusion" is an alias of "dragon fusion". -/
def dragonAliases : AliasMap := [(js "old dragon fusion", js "dragon fusion")]

/-! ## The reconciliation as the specification states it -/

/-- The allow-list of the specification: the four canonical categories, and "Special Items"
folded into "Special". -/
def allowList : List (JsString × JsString) :=
  [(js "Weapons", js "Weapons"), (js "Armor Sets", js "Armor Sets"),
   (js "Rarities", js "Rarities"), (js "Special", js "Special"),
   (js "Special Items", js "Special")]

/-- The (mapped category, item) pairs of the allow-listed categories of a dataset, in source
order. -/
def specPairs (museumDataset : Catalog) : List (JsString × JsVal) :=
  museumDataset.flatMap fun entry =>
    match allowList.lookup entry.1 with
    | some mapped => (entry.2.getD []).map fun itemName => (mapped, itemName)
    | none => []

/-- The first pair for each distinct (mapped category, normalised name) combination. -/
def firstPerKey : List (JsString × JsString) → List (JsString × JsVal) →
    List (JsString × JsVal)
  | _, [] => []
  | seen, p :: rest =>
    if (p.1, normalizeName p.2) ∈ seen then firstPerKey seen rest
    else p :: firstPerKey ((p.1, normalizeName p.2) :: seen) rest

/-- The `missing` list as the specification states it: the pairs whose key is not in the global
donated set, once per (mapped category, normalised name). -/
def specMissing (museumDataset : Catalog) (donatedAll : List JsString) :
    List (JsString × JsVal) :=
  firstPerKey [] ((specPairs museumDataset).filter fun p => decide (normalizeName p.2 ∉ donatedAll))

/-- The total as the specification states it: the number of distinct keys among the items of
the allow-listed categories, `null` when there is none. -/
def specTotal (museumDataset : Catalog) : Option Nat :=
  let n := ((specPairs museumDataset).map fun p => normalizeName p.2).dedup.length
  if n = 0 then none else some n

/-- The museum JSON without any donation data. -/
def noDonations : MuseumJson := { profile := none, museumMembers := none, members := none }

/-- A payload in "profile" shape whose `items` has the one category `constructor`, holding the
one item key `x`. -/
def constructorPayload : MuseumJson :=
  { profile := some { items := some [(js "constructor", .object [js "x"])], special := none },
    museumMembers := none, members := none }

/-- The rational value of a double. -/
def Double.val (x : Double) : ℚ := (x.num : ℚ) / 2 ^ x.exp

/-- The integer nearest to `100 * d / t` in exact arithmetic, a tie going to the larger one. -/
def exactRound (d t : Nat) : Nat := (200 * d + t) / (2 * t)

/-- A dataset with forty items in the category "Weapons", named "0" to "39". -/
def fortyItems : Catalog :=
  [(js "Weapons", some ((List.range 40).map fun i => JsVal.str (indexKey i)))]

/-- A member payload with twenty-three donated entries, none of which has a name. -/
def twentyThreeEntries : MuseumJson :=
  memberPayload (List.replicate 23 (.obj .null .null .null .null))

/-- The step of the flattened reconciliation loop for one (mapped category, item) pair. -/
def reconcilePair (donatedAll : List JsString) (r : Reconciliation) (p : JsString × JsVal) :
    Reconciliation :=
  reconcileItem donatedAll (.canonical p.1) r p.2

/-- The four canonical categories. -/
def canonicalCategories : List JsString :=
  [js "Weapons", js "Armor Sets", js "Rarities", js "Special"]

/-- The element of `missing` for a (mapped category, item) pair. -/
def missingEntryOf (p : JsString × JsVal) : MissingEntry := ⟨.canonical p.1, p.2⟩

/-! ## `normalizeName` of the wiki parser (scripts/parse_wiki_museum_items.js, lines 24-31) -/

/-- Embedding of the parser's `normalizeName`, which is applied to strings only: lower-casing,
the same colour-code replacement as in the server, `.replace(/[^a-z0-9]+/g, ' ')`, `.trim()` and
then `.replace(/\s+/g, ' ')`. -/
def ParseWiki.normalizeName (s : JsString) : JsString :=
  replaceRuns isWhiteSpace false
    (trim (replaceRuns (fun c => !isAlnum c) false (stripColorCodes (toLowerCase s))))

/-! ## `selectProfile` (server.js, lines 78-93) -/

/-- A profile of the upstream profile list: its id, the truthiness of its `selected` field, and
its `members` object, of which only the `last_save` of every member is read (`none` when the
member has no such field or it is `null`; an absent `members` is the empty list). Timestamps are
integers; of JavaScript numbers only their order and whether they are zero matter here. -/
structure Profile where
  profileId : JsString
  selected : Bool
  members : List (JsString × Option Int)
  deriving DecidableEq, Repr

/-- The result of `selectProfile`: `null`, `undefined` or a profile. -/
inductive Selected where
  | null
  | undefined
  | profile (p : Profile)
  deriving DecidableEq, Repr

/-- JavaScript truthiness of the result, as the handler tests it in line 110. -/
def Selected.truthy : Selected → Bool
  | .profile _ => true
  | _ => false

/-- Embedding of `p.members?.[uuid?.replace(...)]?.last_save || 0` (line 86), the replacement
removing every hyphen. A member key that is not an own property gives `undefined`, also when
the name is inherited from `Object.prototype` (the inherited value has no `last_save`). -/
def lastSaveOf (uuid : JsString) (p : Profile) : Int :=
  match p.members.lookup (stripHyphens uuid) with
  | some (some t) => if t ≠ 0 then t else 0
  | _ => 0

/-- Insertion of an element into a list sorted by a comparator, before the first element it
does not have to come after. -/
def insertSorted {α : Type} (cmp : α → α → Int) (x : α) : List α → List α
  | [] => [x]
  | y :: rest => if cmp x y ≤ 0 then x :: y :: rest else y :: insertSorted cmp x rest

/-- Embedding of `Array.prototype.sort(cmp)`: the sort of ECMAScript is stable, so for a
consistent comparator its result is the one of any stable sorting algorithm; `cmp a b > 0`
means that `a` comes after `b`. -/
def stableSort {α : Type} (cmp : α → α → Int) : List α → List α
  | [] => []
  | x :: rest => insertSorted cmp x (stableSort cmp rest)

/-- The comparator of line 88, `(a, b) => b.lastSave - a.lastSave`. -/
def byLastSaveDesc (a b : Profile × Int) : Int := b.2 - a.2

/-- Embedding of `selectProfile`. The argument is `none` when `profiles` is falsy or not an
array. For profiles that are objects nothing in the `try` block throws. -/
def selectProfile (profiles : Option (List Profile)) (uuid : JsString) : Selected :=
  match profiles with
  | none => .null
  | some ps =>
    match ps.find? (fun p => p.selected) with
    | some selected => .profile selected
    | none =>
      let withLastSave :=
        stableSort byLastSaveDesc (ps.map fun p => (p, lastSaveOf uuid p))
      match withLastSave.head? with
      | some first => .profile first.1
      | none =>
        match ps.head? with
        | some p => .profile p
        | none => .undefined

/-- A profile without a "selected" flag whose member `ab` was last saved at the given time. -/
def savedProfile (id : String) (lastSave : Int) : Profile :=
  ⟨js id, false, [(js "ab", some lastSave)]⟩

/-- A profile without a "selected" flag and without a member entry. -/
def bareProfile (id : String) : Profile := ⟨js id, false, []⟩

/-- A profile with the "selected" flag, whose member `ab` was last saved at the given time. -/
def flaggedProfile (id : String) (lastSave : Int) : Profile :=
  ⟨js id, true, [(js "ab", some lastSave)]⟩

/-! ## `normalizeName` on the other values of JSON (server.js, lines 10-19)

The handler passes to `normalizeName` whatever `JSON.parse` gave for the derived name of a
donated entry (line 144, with the name of lines 172 and 184) or for an item of the dataset
(line 216). The embedding above covers `null` and strings; this one covers every value of
JSON. -/

/-- A value as `JSON.parse` gives it. A number is given by the text `String` produces for it,
"0" for the two zeros and for nothing else. An object is given by its own properties. -/
inductive JsonValue where
  | null
  | bool (b : Bool)
  | num (text : JsString)
  | str (s : JsString)
  | arr (items : List JsonValue)
  | obj (props : List (JsString × JsonValue))

/-- Embedding of `!name` (line 11) read the other way round: the falsy values of JSON are
`null`, `false`, the zeros and the empty string. -/
def JsonValue.truthy : JsonValue → Bool
  | .null => false
  | .bool b => b
  | .num text => text != js "0"
  | .str s => !s.isEmpty
  | .arr _ => true
  | .obj _ => true

mutual
/-- Embedding of `String(name)` (line 12). An array is joined with commas by the inherited
`Array.prototype.toString`. An object without an own property `toString` gets "[object Object]"
from `Object.prototype.toString`; with one, which in JSON is never a function, the conversion
skips it, gets the object itself from `Object.prototype.valueOf` (or skips an own `valueOf`
likewise) and throws a `TypeError`. -/
def stringOf : JsonValue → Except JsError JsString
  | .null => .ok (js "null")
  | .bool b => .ok (if b then js "true" else js "false")
  | .num text => .ok text
  | .str s => .ok s
  | .arr items => (textsOf items).map fun texts => (js ",").intercalate texts
  | .obj props =>
    if props.any (fun p => p.1 == js "toString") then .error .typeError
    else .ok (js "[object Object]")
/-- The texts `Array.prototype.join` puts between the commas: the empty text for `null`, its
`String` for every other element. -/
def textsOf : List JsonValue → Except JsError (List JsString)
  | [] => .ok []
  | .null :: rest => (textsOf rest).map fun texts => [] :: texts
  | x :: rest =>
    match stringOf x with
    | .error e => .error e
    | .ok s => (textsOf rest).map fun texts => s :: texts
end

/-- Embedding of `normalizeName` (lines 10-19) for every value of JSON. -/
def JsonValue.normalizeName (name : JsonValue) : Except JsError JsString :=
  if !name.truthy then .ok []
  else
    (stringOf name).map fun s =>
      trim
        (replaceRuns isWhiteSpace false
          (replaceRuns (fun c => !isAllowed c) false
            (underscoresToSpaces (stripColorCodes (toLowerCase s)))))

mutual
/-- The value cannot be converted by `String`: it is an object with an own property `toString`,
or an array that holds such a value. -/
def blocked : JsonValue → Bool
  | .arr items => anyBlocked items
  | .obj props => props.any (fun p => p.1 == js "toString")
  | _ => false
/-- One of the values cannot be converted by `String`. -/
def anyBlocked : List JsonValue → Bool
  | [] => false
  | x :: rest => blocked x || anyBlocked rest
end

/-! ## The items the reconciliation counts -/

/-- The keys of the items the reconciliation loop visits: the normalised names of the items of
every dataset category that passes the test of line 213, in source order. -/
def countedKeys (museumDataset : Catalog) : List JsString :=
  museumDataset.flatMap fun entry =>
    match lookupTargetCat entry.1 with
    | some _ => (entry.2.getD []).map normalizeName
    | none => []

/-! # Theorems -/

/-! ## Properties of `normalizeName` -/

/-- The code units `a-z` and `0-9` are not white space. -/
theorem isWhiteSpace_of_isAlnum {c : Nat} (h : isAlnum c = true) : isWhiteSpace c = false := by
  simp only [isAlnum, Bool.or_eq_true, Bool.and_eq_true, decide_eq_true_eq] at h
  simp only [isWhiteSpace, Bool.or_eq_false_iff, Bool.and_eq_false_imp, decide_eq_true_eq,
    decide_eq_false_iff_not, beq_eq_false_iff_ne]
  omega

theorem isWhiteSpace_space : isWhiteSpace 32 = true := by decide

theorem isAlnum_space : isAlnum 32 = false := by decide

theorem replaceRuns_mem (p : Nat → Bool) (b : Bool) (t : JsString) :
    ∀ c ∈ replaceRuns p b t, c ∈ t ∨ c = 32 := by
  induction t generalizing b with
  | nil => simp [replaceRuns]
  | cons a t ih =>
    intro c hc
    simp only [replaceRuns] at hc
    split at hc
    · split at hc
      · rcases ih _ c hc with h | h
        · exact Or.inl (List.mem_cons_of_mem _ h)
        · exact Or.inr h
      · rcases List.mem_cons.1 hc with h | h
        · exact Or.inr h
        · rcases ih _ c h with h | h
          · exact Or.inl (List.mem_cons_of_mem _ h)
          · exact Or.inr h
    · rcases List.mem_cons.1 hc with h | h
      · exact Or.inl (h ▸ List.mem_cons_self _ _)
      · rcases ih _ c h with h | h
        · exact Or.inl (List.mem_cons_of_mem _ h)
        · exact Or.inr h

/-- The output of `replaceRuns p` keeps no code unit satisfying `p` other than the space. -/
theorem replaceRuns_not_p (p : Nat → Bool) (b : Bool) (t : JsString) :
    ∀ c ∈ replaceRuns p b t, p c = false ∨ c = 32 := by
  induction t generalizing b with
  | nil => simp [replaceRuns]
  | cons a t ih =>
    intro c hc
    simp only [replaceRuns] at hc
    split at hc
    · split at hc
      · exact ih _ c hc
      · rcases List.mem_cons.1 hc with h | h
        · exact Or.inr h
        · exact ih _ c h
    · rename_i hp
      rcases List.mem_cons.1 hc with h | h
      · exact Or.inl (by simpa [h] using hp)
      · exact ih _ c h

/-- When the space satisfies `p`, the output of `replaceRuns p` has no two consecutive spaces, and
does not start with a space when the scan starts inside a run. -/
theorem replaceRuns_chain (p : Nat → Bool) (hp : p 32 = true) (b : Bool) (t : JsString) :
    NoDoubleSpace (replaceRuns p b t) ∧ (b = true → (replaceRuns p b t).head? ≠ some 32) := by
  induction t generalizing b with
  | nil => simp [replaceRuns, NoDoubleSpace]
  | cons a t ih =>
    simp only [replaceRuns]
    by_cases ha : p a = true
    · rw [if_pos ha]
      cases b with
      | true => simpa using ih true
      | false =>
        simp only [Bool.false_eq_true, if_false, false_implies, and_true]
        have h := ih true
        unfold NoDoubleSpace at *
        rw [List.chain'_cons']
        refine ⟨?_, h.1⟩
        intro y hy
        have := h.2 rfl
        rintro ⟨-, rfl⟩
        exact this hy
    · rw [if_neg ha]
      have h := ih false
      have ha32 : a ≠ 32 := by
        rintro rfl
        exact ha hp
      unfold NoDoubleSpace at *
      refine ⟨?_, ?_⟩
      · rw [List.chain'_cons']
        refine ⟨?_, h.1⟩
        intro y _
        rintro ⟨h1, -⟩
        exact ha32 h1
      · intro _
        simp [ha32]

theorem trim_segment (s : JsString) : trim s <:+: s :=
  (List.rdropWhile_prefix _ _).isInfix.trans (List.dropWhile_suffix _).isInfix

theorem trim_head (s : JsString) : (trim s).head? ≠ some 32 := by
  unfold trim
  intro h
  have hpre : List.rdropWhile isWhiteSpace (List.dropWhile isWhiteSpace s) <+:
      List.dropWhile isWhiteSpace s := List.rdropWhile_prefix _ _
  obtain ⟨r, hr⟩ := hpre
  cases hm : List.rdropWhile isWhiteSpace (List.dropWhile isWhiteSpace s) with
  | nil => rw [hm] at h; simp at h
  | cons x xs =>
    rw [hm] at h hr
    simp only [List.head?_cons, Option.some.injEq] at h
    subst h
    have h2 := List.head?_dropWhile_not isWhiteSpace s
    rw [← hr] at h2
    simp [isWhiteSpace_space] at h2

theorem trim_getLast (s : JsString) : (trim s).getLast? ≠ some 32 := by
  unfold trim
  intro h
  have hne : List.rdropWhile isWhiteSpace (List.dropWhile isWhiteSpace s) ≠ [] := by
    intro h0
    rw [h0] at h
    simp at h
  have h1 := List.rdropWhile_last_not isWhiteSpace _ hne
  rw [List.getLast?_eq_getLast _ hne] at h
  simp only [Option.some.injEq] at h
  rw [h] at h1
  exact h1 isWhiteSpace_space

theorem canonical_nil : Canonical [] := by
  simp [Canonical, NoDoubleSpace]

/-- Every result of `normalizeName` is in canonical form. -/
theorem normalizeName_is_canonical (v : JsVal) : Canonical (normalizeName v) := by
  cases v with
  | null => exact canonical_nil
  | str s =>
    simp only [normalizeName]
    split
    · exact canonical_nil
    · refine ⟨?_, trim_head _, trim_getLast _, ?_⟩
      · intro c hc
        have hc1 := (trim_segment _).subset hc
        rcases replaceRuns_mem _ _ _ c hc1 with h | h
        · rcases replaceRuns_not_p _ _ _ c h with h | h
          · simp only [isAllowed, Bool.not_eq_false', Bool.or_eq_true, beq_iff_eq] at h
            exact h
          · exact Or.inr h
        · exact Or.inr h
      · exact List.Chain'.infix (replaceRuns_chain _ isWhiteSpace_space _ _).1 (trim_segment _)

theorem toLowerCase_of_allowed (l : JsString) (h : ∀ c ∈ l, isAlnum c = true ∨ c = 32) :
    toLowerCase l = l := by
  induction l with
  | nil => rfl
  | cons a t ih =>
    have ha := h a (List.mem_cons_self _ _)
    have ht := ih fun c hc => h c (List.mem_cons_of_mem _ hc)
    unfold toLowerCase at *
    rw [List.flatMap_cons, ht]
    have : lowerUnit a = [a] := by
      simp only [isAlnum, Bool.or_eq_true, Bool.and_eq_true, decide_eq_true_eq] at ha
      unfold lowerUnit
      rw [if_neg (by omega), if_neg (by omega), if_neg (by omega)]
    rw [this]
    rfl

theorem stripFrom_of_allowed (l : JsString) (h : ∀ c ∈ l, isAlnum c = true ∨ c = 32) :
    stripFrom 0 l = l := by
  induction l with
  | nil => rfl
  | cons a t ih =>
    have ha := h a (List.mem_cons_self _ _)
    have ht := ih fun c hc => h c (List.mem_cons_of_mem _ hc)
    have hcc : colorCodeAt (a :: t) = false := by
      simp only [isAlnum, Bool.or_eq_true, Bool.and_eq_true, decide_eq_true_eq] at ha
      have ha2 : (a == 0x0E22) = false := by
        rw [beq_eq_false_iff_ne]; omega
      match t with
      | [] => rfl
      | [_] => rfl
      | _ :: _ :: _ => simp [colorCodeAt, ha2]
    simp only [stripFrom, hcc, ht]
    simp

theorem underscoresToSpaces_of_allowed (l : JsString)
    (h : ∀ c ∈ l, isAlnum c = true ∨ c = 32) : underscoresToSpaces l = l := by
  unfold underscoresToSpaces
  conv_rhs => rw [← List.map_id l]
  apply List.map_congr_left
  intro c hc
  have ha := h c hc
  simp only [isAlnum, Bool.or_eq_true, Bool.and_eq_true, decide_eq_true_eq] at ha
  rw [if_neg (by omega)]
  rfl

theorem replaceRuns_of_not_p (p : Nat → Bool) (b : Bool) (l : JsString)
    (h : ∀ c ∈ l, p c = false) : replaceRuns p b l = l := by
  induction l generalizing b with
  | nil => rfl
  | cons a t ih =>
    have ha := h a (List.mem_cons_self _ _)
    simp only [replaceRuns, ha, Bool.false_eq_true, if_false]
    rw [ih _ fun c hc => h c (List.mem_cons_of_mem _ hc)]

/-- Collapsing white space leaves a string of allowed characters without double spaces alone. -/
theorem replaceRuns_ws_of_canonical (b : Bool) (l : JsString)
    (h : ∀ c ∈ l, isAlnum c = true ∨ c = 32) (hc : NoDoubleSpace l)
    (hb : b = true → l.head? ≠ some 32) : replaceRuns isWhiteSpace b l = l := by
  induction l generalizing b with
  | nil => rfl
  | cons a t ih =>
    have ha := h a (List.mem_cons_self _ _)
    have ht := fun c hc => h c (List.mem_cons_of_mem _ hc)
    unfold NoDoubleSpace at hc
    rw [List.chain'_cons'] at hc
    rcases ha with ha | ha
    · have hw := isWhiteSpace_of_isAlnum ha
      simp only [replaceRuns, hw, Bool.false_eq_true, if_false]
      rw [ih false ht hc.2 (by simp)]
    · subst ha
      have hb' : b = false := by
        cases b with
        | false => rfl
        | true => exact absurd rfl (hb rfl)
      subst hb'
      simp only [replaceRuns, isWhiteSpace_space, if_true, Bool.false_eq_true, if_false]
      rw [ih true ht hc.2]
      intro _ hh
      exact hc.1 _ hh ⟨rfl, rfl⟩

theorem trim_of_canonical (l : JsString) (h : Canonical l) : trim l = l := by
  obtain ⟨hall, hhead, hlast, -⟩ := h
  have hws : ∀ c ∈ l, isWhiteSpace c = true → c = 32 := by
    intro c hc hw
    rcases hall c hc with h | h
    · rw [isWhiteSpace_of_isAlnum h] at hw
      exact absurd hw (by simp)
    · exact h
  unfold trim
  have h1 : List.dropWhile isWhiteSpace l = l := by
    rw [List.dropWhile_eq_self_iff]
    intro hl hw
    apply hhead
    have : l.get ⟨0, hl⟩ = 32 := hws _ (List.get_mem _ _ _) hw
    cases l with
    | nil => simp at hl
    | cons a t => simpa using this
  rw [h1, List.rdropWhile_eq_self_iff]
  intro hl hw
  apply hlast
  rw [List.getLast?_eq_getLast _ hl, hws _ (List.getLast_mem hl) hw]

/-- On a canonical key `normalizeName` is the identity. -/
theorem normalizeName_of_canonical (l : JsString) (h : Canonical l) :
    normalizeName (.str l) = l := by
  simp only [normalizeName]
  split
  · rename_i he
    exact (List.isEmpty_iff.1 he).symm
  · have hall := h.1
    rw [toLowerCase_of_allowed l hall]
    unfold stripColorCodes
    rw [stripFrom_of_allowed l hall, underscoresToSpaces_of_allowed l hall,
      replaceRuns_of_not_p _ _ l, replaceRuns_ws_of_canonical false l hall h.2.2.2 (by simp),
      trim_of_canonical l h]
    intro c hc
    rcases hall c hc with h1 | h1
    · simp [isAllowed, h1]
    · subst h1
      decide

/-- C6. `normalizeName` is idempotent: normalising a normalised name changes nothing. -/
theorem normalizeName_idempotent (v : JsVal) :
    normalizeName (.str (normalizeName v)) = normalizeName v :=
  normalizeName_of_canonical _ (normalizeName_is_canonical v)

/-- On `null` and on strings `normalizeName` returns, and its result is canonical: `null` and
the empty string give the empty string, and every result consists of the characters `a-z`,
`0-9` and space only, neither starts nor ends with a space and contains no two consecutive
spaces. -/
theorem normalizeName_total_canonical :
    normalizeName .null = [] ∧ normalizeName (.str []) = [] ∧
    ∀ v : JsVal,
      (∀ c ∈ normalizeName v, (97 ≤ c ∧ c ≤ 122) ∨ (48 ≤ c ∧ c ≤ 57) ∨ c = 32) ∧
      (normalizeName v).head? ≠ some 32 ∧
      (normalizeName v).getLast? ≠ some 32 ∧
      ¬ [32, 32] <:+: normalizeName v := by
  refine ⟨rfl, rfl, fun v => ?_⟩
  obtain ⟨hall, hhead, hlast, hchain⟩ := normalizeName_is_canonical v
  refine ⟨?_, hhead, hlast, ?_⟩
  · intro c hc
    rcases hall c hc with h | h
    · simp only [isAlnum, Bool.or_eq_true, Bool.and_eq_true, decide_eq_true_eq] at h
      rcases h with h | h
      · exact Or.inl h
      · exact Or.inr (Or.inl h)
    · exact Or.inr (Or.inr h)
  · intro hin
    have := List.Chain'.infix hchain hin
    simp at this

theorem lowerUnit_variant {c c' : Nat} (h : variantUnit c c' = true) :
    List.Forall₂ punctUnit (lowerUnit c) (lowerUnit c') := by
  simp only [variantUnit, isAsciiPunct, Bool.or_eq_true, Bool.and_eq_true, decide_eq_true_eq,
    beq_iff_eq] at h
  rcases h with ((h | h) | h) | h
  · subst h
    exact List.forall₂_same.2 fun x _ => Or.inl rfl
  · obtain ⟨⟨h1, h2⟩, rfl⟩ := h
    have e1 : lowerUnit c = [c + 32] := by
      unfold lowerUnit; rw [if_pos ⟨h1, h2⟩]
    have e2 : lowerUnit (c + 32) = [c + 32] := by
      unfold lowerUnit; rw [if_neg (by omega), if_neg (by omega), if_neg (by omega)]
    rw [e1, e2]
    exact List.forall₂_same.2 fun x _ => Or.inl rfl
  · obtain ⟨⟨h1, h2⟩, h3⟩ := h
    have e1 : lowerUnit c = [c] := by
      unfold lowerUnit; rw [if_neg (by omega), if_neg (by omega), if_neg (by omega)]
    have e2 : lowerUnit c' = [c] := by
      unfold lowerUnit; rw [if_pos (by omega)]; rw [h3]
    rw [e1, e2]
    exact List.forall₂_same.2 fun x _ => Or.inl rfl
  · obtain ⟨h1, rfl⟩ := h
    have e1 : lowerUnit c = [c] := by
      unfold lowerUnit; rw [if_neg (by omega), if_neg (by omega), if_neg (by omega)]
    rw [e1]
    refine List.Forall₂.cons (Or.inr ⟨?_, rfl⟩) List.Forall₂.nil
    simp only [isAsciiPunct, Bool.or_eq_true, Bool.and_eq_true, decide_eq_true_eq]
    exact h1

theorem toLowerCase_variant {s s' : JsString}
    (h : List.Forall₂ (fun c c' => variantUnit c c' = true) s s') :
    List.Forall₂ punctUnit (toLowerCase s) (toLowerCase s') := by
  induction h with
  | nil => exact List.Forall₂.nil
  | cons hab _ ih =>
    unfold toLowerCase at *
    rw [List.flatMap_cons, List.flatMap_cons]
    exact List.rel_append (lowerUnit_variant hab) ih

theorem punctUnit_facts {x y : Nat} (h : punctUnit x y) :
    (x == 0x0E22) = (y == 0x0E22) ∧ (x == 0x0E07) = (y == 0x0E07) ∧
    isLineTerminator x = isLineTerminator y ∧ isSep x = isSep y ∧
    (isSep x = false → y = x) := by
  rcases h with h | ⟨h1, h2⟩
  · subst h
    simp
  · subst h2
    simp only [isAsciiPunct, Bool.or_eq_true, Bool.and_eq_true, decide_eq_true_eq] at h1
    have a1 : (x == 0x0E22) = false := by rw [beq_eq_false_iff_ne]; omega
    have a2 : (x == 0x0E07) = false := by rw [beq_eq_false_iff_ne]; omega
    have a3 : isLineTerminator x = false := by
      simp only [isLineTerminator, Bool.or_eq_false_iff, beq_eq_false_iff_ne]
      omega
    have a4 : isSep x = true := by
      simp only [isSep, isAlnum, Bool.not_eq_true', Bool.or_eq_false_iff,
        Bool.and_eq_false_imp, decide_eq_true_eq, decide_eq_false_iff_not]
      omega
    rw [a1, a2, a3, a4]
    refine ⟨by decide, by decide, by decide, by decide, by simp⟩

theorem colorCodeAt_punct {t t' : JsString} (h : List.Forall₂ punctUnit t t') :
    colorCodeAt t = colorCodeAt t' := by
  match t, t', h with
  | [], _, .nil => rfl
  | [_], _, .cons _ .nil => rfl
  | [_, _], _, .cons _ (.cons _ .nil) => rfl
  | _ :: _ :: _ :: _, _, .cons h1 (.cons h2 (.cons h3 _)) =>
    simp only [colorCodeAt]
    rw [(punctUnit_facts h1).1, (punctUnit_facts h2).2.1, (punctUnit_facts h3).2.2.1]

theorem stripFrom_punct {t t' : JsString} (h : List.Forall₂ punctUnit t t') (k : Nat) :
    List.Forall₂ punctUnit (stripFrom k t) (stripFrom k t') := by
  induction h generalizing k with
  | nil => cases k <;> exact List.Forall₂.nil
  | cons hab htl ih =>
    cases k with
    | succ k => simpa [stripFrom] using ih k
    | zero =>
      simp only [stripFrom]
      rw [colorCodeAt_punct (List.Forall₂.cons hab htl)]
      split
      · exact ih 2
      · exact List.Forall₂.cons hab (ih 0)

theorem replaceRuns_sep_punct {t t' : JsString} (h : List.Forall₂ punctUnit t t') (b : Bool) :
    replaceRuns isSep b t = replaceRuns isSep b t' := by
  induction h generalizing b with
  | nil => rfl
  | cons hab _ ih =>
    have hf := punctUnit_facts hab
    simp only [replaceRuns]
    rw [← hf.2.2.2.1]
    split
    · rw [ih true]
    · rename_i hs
      rw [ih false, hf.2.2.2.2 (by simpa using hs)]

/-- The three middle steps of `normalizeName` together replace every maximal run of characters
outside `a-z0-9` by one space. -/
theorem replaceRuns_fused (t : JsString) (b1 b2 : Bool) (hb : b1 = true → b2 = true) :
    replaceRuns isWhiteSpace b2
      (replaceRuns (fun c => !isAllowed c) b1 (underscoresToSpaces t)) =
    replaceRuns isSep b2 t := by
  induction t generalizing b1 b2 with
  | nil => rfl
  | cons a t ih =>
    unfold underscoresToSpaces at *
    rw [List.map_cons]
    by_cases hal : isAlnum a = true
    · have h95 : a ≠ 95 := by
        simp only [isAlnum, Bool.or_eq_true, Bool.and_eq_true, decide_eq_true_eq] at hal
        omega
      have hw := isWhiteSpace_of_isAlnum hal
      simp only [if_neg h95, replaceRuns, isAllowed, hal, Bool.true_or, Bool.not_true,
        Bool.false_eq_true, if_false, hw, isSep]
      exact congrArg (a :: ·) (ih false false (by simp))
    · have hal' : isAlnum a = false := by simpa using hal
      by_cases hsp : a = 32 ∨ a = 95
      · have e : (if a = 95 then 32 else a) = 32 := by
          rcases hsp with h | h <;> simp [h]
        rw [e]
        have h32 : isAllowed 32 = true := by decide
        simp only [replaceRuns, h32, Bool.not_true, Bool.false_eq_true, if_false,
          isWhiteSpace_space, if_true, isSep, hal', Bool.not_false]
        rw [ih false true (by simp)]
      · have h95 : a ≠ 95 := fun h => hsp (Or.inr h)
        have h32 : (a == 32) = false := by
          rw [beq_eq_false_iff_ne]; exact fun h => hsp (Or.inl h)
        simp only [if_neg h95, replaceRuns, isAllowed, hal', h32, Bool.or_self, Bool.not_false,
          if_true, isSep]
        cases b1 with
        | true =>
          have hb2 := hb rfl
          subst hb2
          simp only [if_true]
          exact ih true true (by simp)
        | false =>
          simp only [Bool.false_eq_true, if_false, replaceRuns, isWhiteSpace_space, if_true]
          cases b2 with
          | true => simp only [if_true]; exact ih true true (by simp)
          | false =>
            simp only [Bool.false_eq_true, if_false]
            exact congrArg (32 :: ·) (ih true true (by simp))

/-- C8. `normalizeName` ignores case and punctuation: a string and any variant of it in which
ASCII letters have changed case and ASCII punctuation characters have been replaced by spaces
normalise to the same key. -/
theorem normalizeName_ignores_case_punct (s s' : JsString)
    (h : List.Forall₂ (fun c c' => variantUnit c c' = true) s s') :
    normalizeName (.str s') = normalizeName (.str s) := by
  have hlen := h.length_eq
  simp only [normalizeName]
  have hemp : s'.isEmpty = s.isEmpty := by
    cases s <;> cases s' <;> simp_all
  rw [hemp]
  split
  · rfl
  · rw [replaceRuns_fused _ false false (by simp), replaceRuns_fused _ false false (by simp)]
    unfold stripColorCodes
    rw [replaceRuns_sep_punct (stripFrom_punct (toLowerCase_variant h) 0)]

/-- C8, the instance of the specification: "Old Dragon's Fusion" against
"old dragon s fusion". -/
theorem normalizeName_ignores_case_punct_witness :
    List.Forall₂ (fun c c' => variantUnit c c' = true)
      (js "Old Dragon's Fusion") (js "old dragon s fusion") ∧
    normalizeName (.str (js "old dragon s fusion")) =
      normalizeName (.str (js "Old Dragon's Fusion")) :=
  ⟨by decide, normalizeName_ignores_case_punct _ _ (by decide)⟩

/-! ## `pushName` and the extraction loops -/

theorem mem_setAdd {s : List JsString} {x y : JsString} : x ∈ setAdd s y ↔ x ∈ s ∨ x = y := by
  unfold setAdd
  split
  · constructor
    · exact Or.inl
    · rintro (h | rfl)
      · exact h
      · assumption
  · simp

theorem lookup_append_self (o : List (JsString × List JsString)) (k : JsString)
    (h : o.lookup k = none) : (o ++ [(k, [])]).lookup k = some [] := by
  induction o with
  | nil => simp [List.lookup]
  | cons p o ih =>
    obtain ⟨k', v⟩ := p
    rw [List.cons_append, List.lookup_cons]
    rw [List.lookup_cons] at h
    cases hk : (k == k') with
    | true => rw [hk] at h; exact absurd h (by simp)
    | false =>
      rw [hk] at h
      exact ih h

/-- The result of `pushName` by cases: nothing for an empty key, a `TypeError` for a category
that is inherited and not own, and otherwise the two sets grow. -/
theorem pushName_cases (al : AliasMap) (d : Donations) (cat : JsString) (nm : JsVal) :
    pushName al d cat nm =
      if normalizeName nm = [] then .ok d
      else if d.donatedByCategory.lookup cat = none ∧ cat ∈ objectPrototypeKeys then
        .error .typeError
      else
        .ok { d with
          donatedByCategory := addToCategory cat (normalizeName nm)
            (if truthyProperty d.donatedByCategory cat then d.donatedByCategory
             else d.donatedByCategory ++ [(cat, [])])
          donatedAll := addAlias al (normalizeName nm) (setAdd d.donatedAll (normalizeName nm)) } := by
  unfold pushName
  by_cases hn : normalizeName nm = []
  · simp [hn]
  · have hn' : (normalizeName nm).isEmpty = false := by
      cases h : normalizeName nm with
      | nil => exact absurd h hn
      | cons _ _ => rfl
    simp only [hn', Bool.false_eq_true, if_false, hn]
    cases hl : d.donatedByCategory.lookup cat with
    | some s =>
      simp [truthyProperty, hl, addAlias]
    | none =>
      by_cases hp : cat ∈ objectPrototypeKeys
      · simp [truthyProperty, hl, hp]
      · simp [truthyProperty, hl, hp, lookup_append_self _ _ hl, addAlias]

theorem pushName_empty (al : AliasMap) (d : Donations) (cat : JsString) (nm : JsVal)
    (h : normalizeName nm = []) : pushName al d cat nm = .ok d := by
  simp [pushName_cases, h]

theorem pushName_withCount (al : AliasMap) (k : Nat) (d : Donations) (cat : JsString)
    (nm : JsVal) :
    pushName al (d.withCount k) cat nm = (pushName al d cat nm).map (Donations.withCount k) := by
  rw [pushName_cases, pushName_cases]
  simp only [Donations.withCount]
  split
  · rfl
  · split <;> rfl

theorem foldlM_pushStep_withCount (al : AliasMap) (k : Nat) (l : List (JsString × JsVal))
    (d : Donations) :
    l.foldlM (pushStep al) (d.withCount k) =
      (l.foldlM (pushStep al) d).map (Donations.withCount k) := by
  induction l generalizing d with
  | nil => rfl
  | cons p l ih =>
    simp only [List.foldlM_cons, pushStep]
    rw [pushName_withCount]
    cases h : pushName al d p.1 p.2 with
    | error e => rfl
    | ok d' => exact ih d'

theorem pushKeys_eq (al : AliasMap) (d : Donations) (k : JsString) (keys : List JsString) :
    pushKeys al d k keys =
      ((keyPushes k keys).foldlM (pushStep al) d).map
        (Donations.withCount (d.donatedCount + keys.length)) := by
  rw [← foldlM_pushStep_withCount]
  unfold pushKeys keyPushes
  rw [List.foldlM_map]
  rfl

theorem pushEntries_eq (al : AliasMap) (d : Donations) (k : JsString) (entries : List Entry) :
    pushEntries al d k entries = (entryPushes k entries).foldlM (pushStep al) d := by
  unfold pushEntries entryPushes
  rw [List.foldlM_map]
  rfl

theorem map_withCount_withCount (a b : Nat) (x : Except JsError Donations) :
    (x.map (Donations.withCount a)).map (Donations.withCount b) =
      x.map (Donations.withCount b) := by
  cases x <;> rfl

theorem memberStep_eq (al : AliasMap) (d : Donations) (entry : JsString × ItemsValue) :
    memberStep al d entry =
      ((memberEntryPushes entry).foldlM (pushStep al) d).map
        (Donations.withCount (d.donatedCount + memberEntryCount entry)) := by
  obtain ⟨k, v⟩ := entry
  cases v with
  | array items =>
    show pushEntries al (d.withCount _) k items = _
    rw [pushEntries_eq, foldlM_pushStep_withCount]
    rfl
  | object keys => exact pushKeys_eq al d k keys
  | other => rfl

theorem profileStep_eq (al : AliasMap) (d : Donations) (entry : JsString × ItemsValue) :
    profileStep al d entry =
      ((keyPushes entry.1 entry.2.keys).foldlM (pushStep al) d).map
        (Donations.withCount (d.donatedCount + entry.2.keys.length)) := by
  obtain ⟨k, v⟩ := entry
  cases v with
  | array items => exact pushKeys_eq al d k _
  | object keys => exact pushKeys_eq al d k keys
  | other => rfl

/-- A loop whose body is a run of `pushName` calls followed by a count update is the flattened
run of all the calls, followed by one count update. -/
theorem foldlM_steps {ε : Type} (al : AliasMap) (step : Donations → ε → Except JsError Donations)
    (calls : ε → List (JsString × JsVal)) (count : ε → Nat)
    (hstep : ∀ d e, step d e =
      ((calls e).foldlM (pushStep al) d).map (Donations.withCount (d.donatedCount + count e)))
    (m : List ε) (d : Donations) :
    m.foldlM step d =
      ((m.flatMap calls).foldlM (pushStep al) d).map
        (Donations.withCount (d.donatedCount + (m.map count).sum)) := by
  induction m generalizing d with
  | nil => rfl
  | cons e m ih =>
    rw [List.foldlM_cons, hstep, List.flatMap_cons, List.foldlM_append, List.map_cons,
      List.sum_cons]
    cases h : (calls e).foldlM (pushStep al) d with
    | error err => rfl
    | ok d1 =>
      show m.foldlM step (d1.withCount (d.donatedCount + count e)) = _
      rw [ih, foldlM_pushStep_withCount, map_withCount_withCount]
      show _ = ((m.flatMap calls).foldlM (pushStep al) d1).map _
      rw [show (d1.withCount (d.donatedCount + count e)).donatedCount + (m.map count).sum =
        d.donatedCount + (count e + (m.map count).sum) from by
          show d.donatedCount + count e + _ = _
          rw [Nat.add_assoc]]

theorem extractMember_eq (al : AliasMap) (m : List (JsString × ItemsValue)) :
    extractMember al m =
      ((memberPushes m).foldlM (pushStep al)
        { Donations.init with categories := m.map Prod.fst }).map
        (Donations.withCount (memberCount m)) := by
  unfold extractMember
  rw [foldlM_steps al (memberStep al) memberEntryPushes memberEntryCount (memberStep_eq al)]
  simp only [memberPushes, memberCount, Donations.init, Nat.zero_add]

theorem extractProfile_eq (al : AliasMap) (p : ProfileSection) :
    extractProfile al p =
      ((profilePushes p).foldlM (pushStep al)
        { Donations.init with categories := (p.items.getD []).map Prod.fst }).map
        (Donations.withCount (profileCount p)) := by
  unfold extractProfile
  simp only
  rw [foldlM_steps al (profileStep al) (fun entry => keyPushes entry.1 entry.2.keys)
    (fun entry => entry.2.keys.length) (profileStep_eq al)]
  have hcats : (if ((p.items.getD []).map Prod.fst).length ≠ 0 then
      (p.items.getD []).map Prod.fst else []) = (p.items.getD []).map Prod.fst := by
    cases p.items.getD [] <;> simp
  rw [hcats]
  unfold profilePushes profileCount
  rw [List.foldlM_append]
  cases h : ((p.items.getD []).flatMap fun entry => keyPushes entry.1 entry.2.keys).foldlM
      (pushStep al) { Donations.init with categories := (p.items.getD []).map Prod.fst } with
  | error err => rfl
  | ok d1 =>
    show pushEntries al ((d1.withCount _).withCount _) _ _ = _
    rw [pushEntries_eq, foldlM_pushStep_withCount, foldlM_pushStep_withCount,
      map_withCount_withCount]
    show _ = ((entryPushes (js "special") (p.special.getD [])).foldlM (pushStep al) d1).map _
    simp only [Donations.withCount, Donations.init, Nat.zero_add]

/-- The extraction is the flattened run of its `pushName` calls, started with the observed
categories, followed by one update of the count. -/
theorem extractDonations_eq (al : AliasMap) (mj : MuseumJson) (uuid : JsString) :
    extractDonations al mj uuid =
      ((pushes mj uuid).foldlM (pushStep al) (startState mj uuid)).map
        (Donations.withCount (countedSlots mj uuid)) := by
  unfold extractDonations pushes startState countedSlots observedCategories
  simp only
  split
  · cases hp : mj.profile with
    | none => rfl
    | some p => exact extractProfile_eq al p
  · cases hm : museumMemberOf mj (stripHyphens uuid) with
    | none => rfl
    | some m => exact extractMember_eq al m

theorem lookup_addToCategory (c n : JsString) (o : List (JsString × List JsString))
    (k : JsString) :
    (addToCategory c n o).lookup k =
      if k = c then (o.lookup c).map (fun s => setAdd s n) else o.lookup k := by
  induction o with
  | nil => simp [addToCategory]
  | cons p o ih =>
    obtain ⟨k', s⟩ := p
    unfold addToCategory
    by_cases h1 : k' = c
    · subst h1
      rw [if_pos rfl]
      by_cases h2 : k = k'
      · subst h2
        simp [List.lookup_cons]
      · have : (k == k') = false := by simpa using h2
        simp [List.lookup_cons, this, h2]
    · rw [if_neg h1]
      have hc : (c == k') = false := by
        simpa using fun h : c = k' => h1 h.symm
      by_cases h2 : k = k'
      · subst h2
        have hk : k ≠ c := h1
        simp [List.lookup_cons, hk]
      · have hkk : (k == k') = false := by simpa using h2
        simp only [List.lookup_cons, hkk, hc, ih]

theorem lookup_append_new (o : List (JsString × List JsString)) (c k : JsString) :
    (o ++ [(c, [])]).lookup k =
      match o.lookup k with
      | some s => some s
      | none => if k = c then some [] else none := by
  induction o with
  | nil =>
    by_cases h : k = c
    · subst h; simp [List.lookup_cons]
    · have : (k == c) = false := by simpa using h
      simp [List.lookup_cons, this, h]
  | cons p o ih =>
    obtain ⟨k', s⟩ := p
    rw [List.cons_append, List.lookup_cons, List.lookup_cons]
    cases hk : (k == k') with
    | true => rfl
    | false => exact ih

/-- The state after a call of `pushName` that returns. -/
theorem pushName_ok (al : AliasMap) (d d' : Donations) (cat : JsString) (nm : JsVal)
    (h : pushName al d cat nm = .ok d') :
    d'.donatedCount = d.donatedCount ∧ d'.categories = d.categories ∧
    (∀ x, x ∈ d'.donatedAll ↔ x ∈ d.donatedAll ∨ Contributes al nm x) ∧
    (∀ k x, x ∈ d'.bucket k ↔
      x ∈ d.bucket k ∨ (cat = k ∧ normalizeName nm ≠ [] ∧ x = normalizeName nm)) ∧
    (∀ k, d'.hasCategory k = true ↔
      d.hasCategory k = true ∨ (cat = k ∧ normalizeName nm ≠ [])) := by
  rw [pushName_cases] at h
  by_cases hn : normalizeName nm = []
  · rw [if_pos hn] at h
    cases h
    simp [Contributes, hn]
  · rw [if_neg hn] at h
    split at h
    · cases h
    · rename_i hthrow
      cases h
      refine ⟨rfl, rfl, ?_, ?_, ?_⟩
      · intro x
        simp only [addAlias, Contributes]
        cases hl : al.lookup (normalizeName nm) with
        | none => simp [mem_setAdd, hn]
        | some base =>
          by_cases hb : base = []
          · subst hb
            simp only [List.isEmpty_nil, if_true, mem_setAdd]
            constructor
            · rintro (h | h)
              · exact Or.inl h
              · exact Or.inr ⟨hn, Or.inl h⟩
            · rintro (h | ⟨-, h | ⟨h1, h2⟩⟩)
              · exact Or.inl h
              · exact Or.inr h
              · exact absurd (Option.some.inj h1).symm h2
          · have hb' : base.isEmpty = false := by
              cases base with
              | nil => exact absurd rfl hb
              | cons _ _ => rfl
            simp only [hb', Bool.false_eq_true, if_false, mem_setAdd]
            constructor
            · rintro ((h | h) | h)
              · exact Or.inl h
              · exact Or.inr ⟨hn, Or.inl h⟩
              · exact Or.inr ⟨hn, Or.inr ⟨by rw [h], by rw [h]; exact hb⟩⟩
            · rintro (h | ⟨-, h | ⟨h1, -⟩⟩)
              · exact Or.inl (Or.inl h)
              · exact Or.inl (Or.inr h)
              · exact Or.inr (Option.some.inj h1).symm
      · intro k x
        simp only [Donations.bucket, lookup_addToCategory]
        by_cases hk : k = cat
        · subst hk
          rw [if_pos rfl]
          cases hl : d.donatedByCategory.lookup k with
          | some s =>
            simp [truthyProperty, hl, mem_setAdd, hn]
          | none =>
            have hp : k ∉ objectPrototypeKeys := fun hp => hthrow ⟨hl, hp⟩
            simp [truthyProperty, hl, hp, lookup_append_self _ _ hl, mem_setAdd, hn]
        · rw [if_neg hk]
          have hk' : ¬ cat = k := fun h => hk h.symm
          split
          · simp [hk']
          · rw [lookup_append_new]
            cases hl : d.donatedByCategory.lookup k with
            | some s => simp [hk']
            | none => simp [hk, hk']
      · intro k
        simp only [Donations.hasCategory, lookup_addToCategory]
        by_cases hk : k = cat
        · subst hk
          rw [if_pos rfl]
          cases hl : d.donatedByCategory.lookup k with
          | some s => simp [truthyProperty, hl]
          | none =>
            have hp : k ∉ objectPrototypeKeys := fun hp => hthrow ⟨hl, hp⟩
            simp [truthyProperty, hl, hp, lookup_append_self _ _ hl, hn]
        · rw [if_neg hk]
          have hk' : ¬ cat = k := fun h => hk h.symm
          split
          · simp [hk']
          · rw [lookup_append_new]
            cases hl : d.donatedByCategory.lookup k with
            | some s => simp [hk']
            | none => simp [hk, hk']

/-- A call of `pushName` throws exactly in the states of `Throws`. -/
theorem pushName_error_iff (al : AliasMap) (d : Donations) (cat : JsString) (nm : JsVal) :
    pushName al d cat nm = .error .typeError ↔ Throws d (cat, nm) := by
  rw [pushName_cases]
  unfold Throws Donations.hasCategory
  by_cases hn : normalizeName nm = []
  · simp [hn]
  · rw [if_neg hn]
    by_cases hp : cat ∈ objectPrototypeKeys
    · cases hl : d.donatedByCategory.lookup cat with
      | some s => simp [hp, hn]
      | none => simp [hp, hn]
    · simp [hp, hn]

theorem except_cases (x : Except JsError Donations) :
    x = .error .typeError ∨ ∃ d, x = .ok d := by
  cases x with
  | error e => cases e; exact Or.inl rfl
  | ok d => exact Or.inr ⟨d, rfl⟩

/-- The state after a run of `pushName` calls that returns. -/
theorem foldlM_pushStep_ok (al : AliasMap) (l : List (JsString × JsVal)) (d d' : Donations)
    (h : l.foldlM (pushStep al) d = .ok d') :
    d'.donatedCount = d.donatedCount ∧ d'.categories = d.categories ∧
    (∀ x, x ∈ d'.donatedAll ↔ x ∈ d.donatedAll ∨ ∃ p ∈ l, Contributes al p.2 x) ∧
    (∀ k x, x ∈ d'.bucket k ↔
      x ∈ d.bucket k ∨ ∃ p ∈ l, p.1 = k ∧ normalizeName p.2 ≠ [] ∧ x = normalizeName p.2) ∧
    (∀ k, d'.hasCategory k = true ↔
      d.hasCategory k = true ∨ ∃ p ∈ l, p.1 = k ∧ normalizeName p.2 ≠ []) := by
  induction l generalizing d with
  | nil =>
    cases h
    simp
  | cons p l ih =>
    rw [List.foldlM_cons] at h
    cases h1 : pushStep al d p with
    | error e => rw [h1] at h; cases h
    | ok d1 =>
      rw [h1] at h
      obtain ⟨a1, a2, a3, a4, a5⟩ := pushName_ok al d d1 p.1 p.2 h1
      obtain ⟨b1, b2, b3, b4, b5⟩ := ih d1 h
      refine ⟨b1.trans a1, b2.trans a2, ?_, ?_, ?_⟩
      · intro x
        rw [b3, a3]
        simp only [List.mem_cons, exists_eq_or_imp]
        tauto
      · intro k x
        rw [b4, a4]
        simp only [List.mem_cons, exists_eq_or_imp]
        tauto
      · intro k
        rw [b5, a5]
        simp only [List.mem_cons, exists_eq_or_imp]
        tauto

/-- A run of `pushName` calls throws exactly when one of the calls would throw in the state in
which the run starts. -/
theorem foldlM_pushStep_error_iff (al : AliasMap) (l : List (JsString × JsVal))
    (d : Donations) :
    l.foldlM (pushStep al) d = .error .typeError ↔ ∃ p ∈ l, Throws d p := by
  induction l generalizing d with
  | nil => simp [List.foldlM_nil, pure, Except.pure]
  | cons p l ih =>
    rw [List.foldlM_cons]
    rcases except_cases (pushStep al d p) with h1 | ⟨d1, h1⟩
    · rw [h1]
      constructor
      · intro _
        exact ⟨p, List.mem_cons_self _ _, (pushName_error_iff al d p.1 p.2).1 h1⟩
      · intro _
        rfl
    · rw [h1]
      have hnot : ¬ Throws d p := fun ht => by
        have := (pushName_error_iff al d p.1 p.2).2 ht
        rw [show pushName al d p.1 p.2 = pushStep al d p from rfl, h1] at this
        cases this
      obtain ⟨-, -, -, -, a5⟩ := pushName_ok al d d1 p.1 p.2 h1
      show l.foldlM (pushStep al) d1 = _ ↔ _
      rw [ih d1]
      constructor
      · rintro ⟨q, hq, hn, hp, hc⟩
        refine ⟨q, List.mem_cons_of_mem _ hq, hn, hp, ?_⟩
        cases hd : d.hasCategory q.1 with
        | false => rfl
        | true =>
          have := (a5 q.1).2 (Or.inl hd)
          rw [this] at hc
          cases hc
      · rintro ⟨q, hq, hn, hp, hc⟩
        rcases List.mem_cons.1 hq with rfl | hq
        · exact absurd ⟨hn, hp, hc⟩ hnot
        · refine ⟨q, hq, hn, hp, ?_⟩
          cases hd : d1.hasCategory q.1 with
          | false => rfl
          | true =>
            rcases (a5 q.1).1 hd with h | ⟨h, h'⟩
            · rw [h] at hc
              cases hc
            · exact absurd ⟨h', h ▸ hp, h ▸ hc⟩ hnot

/-- The extraction throws exactly when some call of `pushName` has a non-empty key and a
category whose name is inherited from `Object.prototype`. -/
theorem extractDonations_error_iff (al : AliasMap) (mj : MuseumJson) (uuid : JsString) :
    extractDonations al mj uuid = .error .typeError ↔
      ∃ p ∈ pushes mj uuid, normalizeName p.2 ≠ [] ∧ p.1 ∈ objectPrototypeKeys := by
  rw [extractDonations_eq]
  rcases except_cases ((pushes mj uuid).foldlM (pushStep al) (startState mj uuid)) with h | ⟨d, h⟩
  · rw [h]
    have := (foldlM_pushStep_error_iff al _ _).1 h
    constructor
    · intro _
      obtain ⟨p, hp, h1, h2, -⟩ := this
      exact ⟨p, hp, h1, h2⟩
    · intro _
      rfl
  · have hno : ¬ ∃ p ∈ pushes mj uuid, Throws (startState mj uuid) p := fun hex => by
      have := (foldlM_pushStep_error_iff al _ _).2 hex
      rw [h] at this
      cases this
    rw [h]
    constructor
    · intro h'
      cases h'
    · rintro ⟨p, hp, h1, h2⟩
      exact absurd ⟨p, hp, h1, h2, rfl⟩ hno

/-- The result of an extraction that returns: the count, the observed categories, and the
elements of the global set and of the per-category sets. -/
theorem extractDonations_ok (al : AliasMap) (mj : MuseumJson) (uuid : JsString) (d : Donations)
    (h : extractDonations al mj uuid = .ok d) :
    d.donatedCount = countedSlots mj uuid ∧ d.categories = observedCategories mj uuid ∧
    (∀ x, x ∈ d.donatedAll ↔ ∃ p ∈ pushes mj uuid, Contributes al p.2 x) ∧
    (∀ k x, x ∈ d.bucket k ↔
      ∃ p ∈ pushes mj uuid, p.1 = k ∧ normalizeName p.2 ≠ [] ∧ x = normalizeName p.2) ∧
    (∀ k, d.hasCategory k = true ↔
      ∃ p ∈ pushes mj uuid, p.1 = k ∧ normalizeName p.2 ≠ []) := by
  rw [extractDonations_eq] at h
  cases h1 : (pushes mj uuid).foldlM (pushStep al) (startState mj uuid) with
  | error e => rw [h1] at h; cases h
  | ok d1 =>
    rw [h1] at h
    cases h
    obtain ⟨-, b2, b3, b4, b5⟩ := foldlM_pushStep_ok al _ _ _ h1
    refine ⟨rfl, b2, ?_, ?_, ?_⟩
    · intro x
      have := b3 x
      simpa [startState, Donations.init, Donations.withCount] using this
    · intro k x
      have := b4 k x
      simpa [startState, Donations.init, Donations.withCount, Donations.bucket] using this
    · intro k
      have := b5 k
      simpa [startState, Donations.init, Donations.withCount, Donations.hasCategory] using this

/-- The extraction returns or throws a `TypeError`. -/
theorem extractDonations_cases (al : AliasMap) (mj : MuseumJson) (uuid : JsString) :
    extractDonations al mj uuid = .error .typeError ∨ ∃ d, extractDonations al mj uuid = .ok d :=
  except_cases _

/-! ## The donated count (C10) -/

theorem normalizeName_derivedName_of_noUsableName (e : Entry) (h : e.noUsableName = true) :
    normalizeName e.derivedName = [] := by
  cases e with
  | null => rfl
  | str s =>
    simp only [Entry.noUsableName, List.isEmpty_iff] at h
    subst h
    rfl
  | obj n dn ii i =>
    simp only [Entry.noUsableName, Bool.and_eq_true, Bool.not_eq_true'] at h
    obtain ⟨⟨⟨h1, h2⟩, h3⟩, h4⟩ := h
    simp [Entry.derivedName, JsVal.or, h1, h2, h3, h4, normalizeName]

/-- The extraction returns when no category of a `pushName` call is an inherited name. -/
theorem extractDonations_returns (al : AliasMap) (mj : MuseumJson) (uuid : JsString)
    (h : ∀ p ∈ pushes mj uuid, p.1 ∉ objectPrototypeKeys) :
    ∃ d, extractDonations al mj uuid = .ok d := by
  rcases extractDonations_cases al mj uuid with he | hd
  · obtain ⟨p, hp, -, hk⟩ := (extractDonations_error_iff al mj uuid).1 he
    exact absurd hk (h p hp)
  · exact hd

theorem countedSlots_le_claimedSlots (mj : MuseumJson) (uuid : JsString) :
    (hasProfileData mj = true → countedSlots mj uuid = claimedSlots mj uuid) ∧
    countedSlots mj uuid ≤ claimedSlots mj uuid := by
  unfold countedSlots claimedSlots
  constructor
  · intro h
    rw [if_pos h, if_pos h]
  · split
    · exact Nat.le_refl _
    · cases museumMemberOf mj (stripHyphens uuid) with
      | none => exact Nat.le_refl _
      | some m =>
        simp only [memberCount]
        induction m with
        | nil => exact Nat.le_refl _
        | cons e m ih =>
          simp only [List.map_cons, List.sum_cons]
          apply Nat.add_le_add _ ih
          unfold memberEntryCount
          cases e.2 with
          | array items => exact List.length_filter_le _ _
          | object keys => exact Nat.le_refl _
          | other => exact Nat.le_refl _

/-- C10, as amended. An entry without a usable name adds nothing to the sets, and the donated
count of an extraction that returns is the number of counted slots: in Variant A the keys of
every category object plus the length of the special array, which is the number of entry slots;
in Variant B the truthy entries of every category array and the keys of every category object,
which is at most the number of entry slots. The extraction returns whenever no category name is
inherited from `Object.prototype`. -/
theorem donatedCount_eq_countedSlots (al : AliasMap) (mj : MuseumJson) (uuid : JsString) :
    (∀ (d : Donations) (cat : JsString) (e : Entry), e.noUsableName = true →
      pushName al d cat e.derivedName = .ok d) ∧
    (∀ d, extractDonations al mj uuid = .ok d → d.donatedCount = countedSlots mj uuid) ∧
    ((∀ p ∈ pushes mj uuid, p.1 ∉ objectPrototypeKeys) →
      ∃ d, extractDonations al mj uuid = .ok d ∧ d.donatedCount = countedSlots mj uuid) ∧
    (hasProfileData mj = true → countedSlots mj uuid = claimedSlots mj uuid) ∧
    countedSlots mj uuid ≤ claimedSlots mj uuid := by
  refine ⟨?_, ?_, ?_, countedSlots_le_claimedSlots mj uuid⟩
  · intro d cat e he
    exact pushName_empty al d cat _ (normalizeName_derivedName_of_noUsableName e he)
  · intro d hd
    exact (extractDonations_ok al mj uuid d hd).1
  · intro h
    obtain ⟨d, hd⟩ := extractDonations_returns al mj uuid h
    exact ⟨d, hd, (extractDonations_ok al mj uuid d hd).1⟩

/-- C10, an instance: of the four slots of `slotsPayload` the two truthy ones are counted, and
only the last one has a usable name. -/
theorem donatedCount_eq_countedSlots_witness :
    pushName [] Donations.init (js "w") (Entry.derivedName .null) = .ok Donations.init ∧
    extractDonations [] slotsPayload (js "u") =
      .ok ⟨2, [js "w"], [(js "w", [js "sword b"])], [js "sword b"]⟩ ∧
    countedSlots slotsPayload (js "u") = 2 :=
  ⟨(donatedCount_eq_countedSlots [] slotsPayload (js "u")).1 _ _ .null rfl,
   by decide,
   ((donatedCount_eq_countedSlots [] slotsPayload (js "u")).2.1
      ⟨2, [js "w"], [(js "w", [js "sword b"])], [js "sword b"]⟩ (by decide)).symm⟩

/-- C10 as stated fails: in Variant B a `null` entry of a category array occupies a slot and is
not counted. The payload is `{members: {u: {w: [null]}}}`. -/
theorem donatedCount_ne_claimedSlots :
    extractDonations []
      { profile := none, museumMembers := none,
        members := some [(js "u", [(js "w", .array [.null])])] } (js "u") =
      .ok ⟨0, [js "w"], [], []⟩ ∧
    claimedSlots
      { profile := none, museumMembers := none,
        members := some [(js "u", [(js "w", .array [.null])])] } (js "u") = 1 := by
  decide

/-! ## The two payload shapes (C9) -/

theorem normalizeName_nameEntry (n : JsString) :
    normalizeName (nameEntry n).derivedName = normalizeName (.str n) := by
  cases n with
  | nil => rfl
  | cons a t => rfl

theorem lookup_singleton_self {β : Type} (k : JsString) (v : β) :
    List.lookup k [(k, v)] = some v := by
  simp [List.lookup_cons]

/-- An identifier that is `key` with hyphens put in is `key` after line 134. -/
theorem stripHyphens_of_hyphenatedFrom (key uuid : JsString)
    (h : hyphenatedFrom key uuid = true) : stripHyphens uuid = key := by
  induction uuid generalizing key with
  | nil =>
    cases key with
    | nil => rfl
    | cons k key => simp [hyphenatedFrom] at h
  | cons u rest ih =>
    unfold hyphenatedFrom at h
    by_cases hu : u = 45
    · rw [if_pos hu] at h
      subst hu
      have := ih key h
      simpa [stripHyphens] using this
    · rw [if_neg hu] at h
      cases key with
      | nil => simp at h
      | cons k key =>
        simp only [Bool.and_eq_true, beq_iff_eq] at h
        obtain ⟨rfl, h2⟩ := h
        have := ih key h2
        unfold stripHyphens at this ⊢
        rw [List.filter_cons_of_pos (by simpa using hu), this]

/-- Every identifier is its text without hyphens, with hyphens put in. -/
theorem hyphenatedFrom_filter (uuid : JsString) :
    hyphenatedFrom (uuid.filter fun c => c != 45) uuid = true := by
  induction uuid with
  | nil => rfl
  | cons u rest ih =>
    by_cases hu : u = 45
    · subst hu
      rw [List.filter_cons_of_neg (by simp)]
      unfold hyphenatedFrom
      rw [if_pos rfl]
      exact ih
    · rw [List.filter_cons_of_pos (by simpa using hu)]
      unfold hyphenatedFrom
      rw [if_neg hu]
      simp [ih]

theorem pushes_memberShapePayload (nested : Bool) (key uuid c : JsString) (ns : List JsString)
    (hkey : hyphenatedFrom key uuid = true) :
    pushes (memberShapePayload nested key c ns) uuid = entryPushes c (ns.map nameEntry) := by
  have e := stripHyphens_of_hyphenatedFrom key uuid hkey
  cases nested <;>
    simp [pushes, memberShapePayload, hasProfileData, museumMemberOf, memberAt, e,
      lookup_singleton_self, memberPushes, memberEntryPushes]

theorem pushes_profileShapePayload (uuid c : JsString) (ks : List JsString) :
    pushes (profileShapePayload c ks) uuid = keyPushes c ks := by
  simp [pushes, profileShapePayload, hasProfileData, profilePushes, entryPushes, ItemsValue.keys]

theorem observedCategories_memberShapePayload (nested : Bool) (key uuid c : JsString)
    (ns : List JsString) (hkey : hyphenatedFrom key uuid = true) :
    observedCategories (memberShapePayload nested key c ns) uuid = [c] := by
  have e := stripHyphens_of_hyphenatedFrom key uuid hkey
  cases nested <;>
    simp [observedCategories, memberShapePayload, hasProfileData, museumMemberOf, memberAt, e,
      lookup_singleton_self]

theorem observedCategories_profileShapePayload (uuid c : JsString) (ks : List JsString) :
    observedCategories (profileShapePayload c ks) uuid = [c] := by
  simp [observedCategories, profileShapePayload, hasProfileData]

/-- The calls of `pushName` for the two shapes have the same categories and keys. -/
theorem pushes_shapes (nested : Bool) (key uuid c : JsString) (ns ks : List JsString)
    (hkey : hyphenatedFrom key uuid = true)
    (h : ∀ x, x ∈ ks ↔ x ∈ ns) (P : JsString → JsString → Prop) :
    (∃ p ∈ pushes (memberShapePayload nested key c ns) uuid, P p.1 (normalizeName p.2)) ↔
    (∃ p ∈ pushes (profileShapePayload c ks) uuid, P p.1 (normalizeName p.2)) := by
  rw [pushes_memberShapePayload nested key uuid c ns hkey, pushes_profileShapePayload]
  simp only [entryPushes, keyPushes, List.mem_map, List.map_map]
  constructor
  · rintro ⟨p, ⟨n, hn, rfl⟩, hp⟩
    refine ⟨(c, JsVal.str n), ⟨n, (h n).2 hn, rfl⟩, ?_⟩
    simpa [normalizeName_nameEntry] using hp
  · rintro ⟨p, ⟨n, hn, rfl⟩, hp⟩
    refine ⟨(c, (nameEntry n).derivedName), ⟨n, (h n).1 hn, rfl⟩, ?_⟩
    simpa [normalizeName_nameEntry] using hp

/-- C9. The two payload variants extract identically, for every identifier `uuid`: the payload
in "member" shape, whose member map has under `key`, the identifier without its hyphens, the
member entry that maps `c` to the array of the entries `{name: n}` for `n` in `ns`, and the
payload in "profile" shape whose `profile.items` maps `c` to an object with the item keys `ns`
(its key list `ks` has the elements of `ns`), give the same observed categories, the same global
set and the same per-category sets, or throw alike. -/
theorem member_shape_eq_profile_shape (al : AliasMap) (nested : Bool) (key uuid c : JsString)
    (ns ks : List JsString) (hkey : hyphenatedFrom key uuid = true)
    (h : ∀ x, x ∈ ks ↔ x ∈ ns) :
    SameExtraction (extractDonations al (memberShapePayload nested key c ns) uuid)
      (extractDonations al (profileShapePayload c ks) uuid) := by
  have hthrow := pushes_shapes nested key uuid c ns ks hkey h
    (fun k n => n ≠ [] ∧ k ∈ objectPrototypeKeys)
  rcases extractDonations_cases al (memberShapePayload nested key c ns) uuid with h1 | ⟨d1, h1⟩
  · have h2 := (extractDonations_error_iff al _ _).2
      (hthrow.1 ((extractDonations_error_iff al _ _).1 h1))
    rw [h1, h2]
    rfl
  · rcases extractDonations_cases al (profileShapePayload c ks) uuid with h2 | ⟨d2, h2⟩
    · have := (extractDonations_error_iff al _ _).2
        (hthrow.2 ((extractDonations_error_iff al _ _).1 h2))
      rw [h1] at this
      cases this
    · rw [h1, h2]
      obtain ⟨-, a2, a3, a4, a5⟩ := extractDonations_ok al _ _ _ h1
      obtain ⟨-, b2, b3, b4, b5⟩ := extractDonations_ok al _ _ _ h2
      refine ⟨?_, ?_, ?_, ?_⟩
      · rw [a2, b2, observedCategories_memberShapePayload nested key uuid c ns hkey,
          observedCategories_profileShapePayload]
      · intro x
        rw [a3, b3]
        exact pushes_shapes nested key uuid c ns ks hkey h
          (fun _ n => n ≠ [] ∧ (x = n ∨ (al.lookup n = some x ∧ x ≠ [])))
      · intro k
        have := pushes_shapes nested key uuid c ns ks hkey h (fun k' n => k' = k ∧ n ≠ [])
        have e : d1.hasCategory k = true ↔ d2.hasCategory k = true := by
          rw [a5, b5]
          exact this
        cases hd1 : d1.hasCategory k <;> cases hd2 : d2.hasCategory k <;> simp_all
      · intro k x
        rw [a4, b4]
        exact pushes_shapes nested key uuid c ns ks hkey h (fun k' n => k' = k ∧ n ≠ [] ∧ x = n)

/-- C9, the instance of the specification: the category "Weapons" with the item "Sword B", for
the identifier "ab-cd", whose member entry is under the key "abcd". Both shapes give the one
category "Weapons" and the one key "sword b". -/
theorem member_shape_eq_profile_shape_witness :
    hyphenatedFrom (js "abcd") (js "ab-cd") = true ∧
    (∀ x, x ∈ [js "Sword B"] ↔ x ∈ [js "Sword B"]) ∧
    SameExtraction
      (extractDonations [] (memberShapePayload false (js "abcd") (js "Weapons") [js "Sword B"])
        (js "ab-cd"))
      (extractDonations [] (profileShapePayload (js "Weapons") [js "Sword B"]) (js "ab-cd")) ∧
    extractDonations [] (memberShapePayload false (js "abcd") (js "Weapons") [js "Sword B"])
        (js "ab-cd") =
      .ok ⟨1, [js "Weapons"], [(js "Weapons", [js "sword b"])], [js "sword b"]⟩ ∧
    extractDonations [] (profileShapePayload (js "Weapons") [js "Sword B"]) (js "ab-cd") =
      .ok ⟨1, [js "Weapons"], [(js "Weapons", [js "sword b"])], [js "sword b"]⟩ :=
  ⟨by decide, fun _ => Iff.rfl,
   member_shape_eq_profile_shape [] false (js "abcd") (js "ab-cd") (js "Weapons")
     [js "Sword B"] [js "Sword B"] (by decide) (fun _ => Iff.rfl),
   by decide, by decide⟩

/-! ## Reconciliation and alias resolution (C4) -/

theorem museumResponse_eq (cat : Catalog) (al : AliasMap) (mj : MuseumJson) (uuid : JsString) :
    museumResponse cat al mj uuid = (extractDonations al mj uuid).map (responseOf cat) := by
  unfold museumResponse
  cases extractDonations al mj uuid <;> rfl

theorem museumResponse_ok (cat : Catalog) (al : AliasMap) (mj : MuseumJson) (uuid : JsString)
    (r : Response) (h : museumResponse cat al mj uuid = .ok r) :
    ∃ d, extractDonations al mj uuid = .ok d ∧ r = responseOf cat d := by
  rw [museumResponse_eq] at h
  cases hd : extractDonations al mj uuid with
  | error e => rw [hd] at h; cases h
  | ok d =>
    rw [hd] at h
    cases h
    exact ⟨d, rfl, rfl⟩

theorem reconcileItem_missing (all : List JsString) (mc : MappedCat) (r : Reconciliation)
    (it : JsVal) (h : ∀ m ∈ r.missing, normalizeName m.name ∉ all) :
    ∀ m ∈ (reconcileItem all mc r it).missing, normalizeName m.name ∉ all := by
  unfold reconcileItem
  by_cases h1 : normalizeName it ∈ r.uniqueDatasetItems <;>
    by_cases h2 : normalizeName it ∈ all <;>
    by_cases h3 : mc.text ++ js "|" ++ normalizeName it ∈ r.seenMissing <;>
    simp only [h1, h2, h3, if_true, if_false] <;>
    first
    | exact h
    | (intro m hm
       rcases List.mem_append.1 hm with hm | hm
       · exact h m hm
       · simp only [List.mem_singleton] at hm
         subst hm
         exact h2)

theorem foldl_reconcileItem_missing (all : List JsString) (mc : MappedCat) (l : List JsVal)
    (r : Reconciliation) (h : ∀ m ∈ r.missing, normalizeName m.name ∉ all) :
    ∀ m ∈ (l.foldl (reconcileItem all mc) r).missing, normalizeName m.name ∉ all := by
  induction l generalizing r with
  | nil => exact h
  | cons it l ih => exact ih _ (reconcileItem_missing all mc r it h)

theorem foldl_reconcileCategory_missing (all : List JsString) (cat : Catalog)
    (r : Reconciliation) (h : ∀ m ∈ r.missing, normalizeName m.name ∉ all) :
    ∀ m ∈ (cat.foldl (reconcileCategory all) r).missing, normalizeName m.name ∉ all := by
  induction cat generalizing r with
  | nil => exact h
  | cons e cat ih =>
    apply ih
    unfold reconcileCategory
    split
    · exact h
    · exact foldl_reconcileItem_missing all _ _ r h

/-- No element of `missing` has a key in the global donated set. -/
theorem reconcile_missing (all : List JsString) (cat : Catalog) :
    ∀ m ∈ (reconcile all cat).missing, normalizeName m.name ∉ all :=
  foldl_reconcileCategory_missing all cat _ (by simp [Reconciliation.init])

theorem pushName_byCategory (al al' : AliasMap) (d d' : Donations) (c : JsString) (nm : JsVal)
    (h : d.donatedByCategory = d'.donatedByCategory) :
    (pushName al d c nm).map (fun s => s.donatedByCategory) =
      (pushName al' d' c nm).map (fun s => s.donatedByCategory) := by
  rw [pushName_cases, pushName_cases, h]
  split
  · exact congrArg Except.ok h
  · split <;> rfl

theorem foldlM_pushStep_byCategory (al al' : AliasMap) (l : List (JsString × JsVal))
    (d d' : Donations) (h : d.donatedByCategory = d'.donatedByCategory) :
    (l.foldlM (pushStep al) d).map (fun s => s.donatedByCategory) =
      (l.foldlM (pushStep al') d').map (fun s => s.donatedByCategory) := by
  induction l generalizing d d' with
  | nil => exact congrArg Except.ok h
  | cons p l ih =>
    rw [List.foldlM_cons, List.foldlM_cons]
    have hp := pushName_byCategory al al' d d' p.1 p.2 h
    cases h1 : pushName al d p.1 p.2 with
    | error e =>
      cases h2 : pushName al' d' p.1 p.2 with
      | error e' =>
        rw [h1, h2] at hp
        rw [show pushStep al d p = pushName al d p.1 p.2 from rfl, h1,
          show pushStep al' d' p = pushName al' d' p.1 p.2 from rfl, h2]
        exact hp
      | ok d2 => rw [h1, h2] at hp; cases hp
    | ok d1 =>
      cases h2 : pushName al' d' p.1 p.2 with
      | error e' => rw [h1, h2] at hp; cases hp
      | ok d2 =>
        rw [h1, h2] at hp
        rw [show pushStep al d p = pushName al d p.1 p.2 from rfl, h1,
          show pushStep al' d' p = pushName al' d' p.1 p.2 from rfl, h2]
        exact ih d1 d2 (Except.ok.inj hp)

/-- The per-category sets do not depend on the alias table. -/
theorem extractDonations_byCategory (al al' : AliasMap) (mj : MuseumJson) (uuid : JsString) :
    (extractDonations al mj uuid).map (fun s => s.donatedByCategory) =
      (extractDonations al' mj uuid).map (fun s => s.donatedByCategory) := by
  rw [extractDonations_eq, extractDonations_eq]
  have := foldlM_pushStep_byCategory al al' (pushes mj uuid) (startState mj uuid)
    (startState mj uuid) rfl
  cases h1 : (pushes mj uuid).foldlM (pushStep al) (startState mj uuid) <;>
    cases h2 : (pushes mj uuid).foldlM (pushStep al') (startState mj uuid) <;>
    rw [h1, h2] at this <;> exact this

/-- C4, as amended. When the alias table maps a non-empty key `a` to a non-empty base key `b`
and the payload has an entry whose name normalises to `a`, then `b` is in the global donated
set of every extraction that returns and no item whose key is `b` is in `missing`; and the
per-category sets are those of the extraction without any alias table: the base key goes to
the global set only. -/
theorem alias_base_not_missing (cat : Catalog) (al : AliasMap) (mj : MuseumJson)
    (uuid a b : JsString) (ha : a ≠ []) (hb : b ≠ []) (hal : al.lookup a = some b)
    (hdon : ∃ p ∈ pushes mj uuid, normalizeName p.2 = a) :
    (∀ d, extractDonations al mj uuid = .ok d → b ∈ d.donatedAll) ∧
    (∀ r, museumResponse cat al mj uuid = .ok r →
      ∀ m ∈ r.missing, normalizeName m.name ≠ b) ∧
    (extractDonations al mj uuid).map (fun s => s.donatedByCategory) =
      (extractDonations [] mj uuid).map (fun s => s.donatedByCategory) := by
  have hmem : ∀ d, extractDonations al mj uuid = .ok d → b ∈ d.donatedAll := by
    intro d hd
    obtain ⟨p, hp, hpa⟩ := hdon
    refine ((extractDonations_ok al mj uuid d hd).2.2.1 b).2 ⟨p, hp, ?_, Or.inr ⟨?_, hb⟩⟩
    · rw [hpa]; exact ha
    · rw [hpa]; exact hal
  refine ⟨hmem, ?_, extractDonations_byCategory al [] mj uuid⟩
  intro r hr m hm hkey
  obtain ⟨d, hd, rfl⟩ := museumResponse_ok cat al mj uuid r hr
  exact reconcile_missing d.donatedAll cat m hm (hkey ▸ hmem d hd)

/-- C4, the instance of the specification: the alias "old dragon fusion" of "dragon fusion",
a player who donated only "Old Dragon Fusion", and a dataset listing "Dragon Fusion": nothing
is missing. -/
theorem alias_base_not_missing_witness :
    js "old dragon fusion" ≠ [] ∧ js "dragon fusion" ≠ [] ∧
    dragonAliases.lookup (js "old dragon fusion") = some (js "dragon fusion") ∧
    (∃ p ∈ pushes (memberPayload [nameEntry (js "Old Dragon Fusion")]) (js "u"),
      normalizeName p.2 = js "old dragon fusion") ∧
    museumResponse (weaponsCatalog ["Dragon Fusion"]) dragonAliases
        (memberPayload [nameEntry (js "Old Dragon Fusion")]) (js "u") =
      .ok { categories := [js "w"], counts := ⟨1, some 1, some 100⟩, missing := [],
            hints := [] } ∧
    (∀ r, museumResponse (weaponsCatalog ["Dragon Fusion"]) dragonAliases
        (memberPayload [nameEntry (js "Old Dragon Fusion")]) (js "u") = .ok r →
      ∀ m ∈ r.missing, normalizeName m.name ≠ js "dragon fusion") :=
  ⟨by decide, by decide, by decide,
   ⟨(js "w", .str (js "Old Dragon Fusion")), by decide, by decide⟩, by decide,
   (alias_base_not_missing (weaponsCatalog ["Dragon Fusion"]) dragonAliases
      (memberPayload [nameEntry (js "Old Dragon Fusion")]) (js "u")
      (js "old dragon fusion") (js "dragon fusion") (by decide) (by decide) (by decide)
      ⟨(js "w", .str (js "Old Dragon Fusion")), by decide, by decide⟩).2.1⟩

/-- C4 as stated fails for the empty key. An entry "???" normalises to the empty key, which
`pushName` skips, so an alias table mapping the empty key to "dragon fusion" does not keep
"Dragon Fusion" out of `missing`; and an alias whose base is the empty key adds nothing, so the
item "???" (whose key is empty) stays in `missing`. -/
theorem alias_of_empty_key_missing :
    (normalizeName (.str (js "???")) = [] ∧
     List.lookup [] [(([] : JsString), js "dragon fusion")] = some (js "dragon fusion") ∧
     normalizeName (.str (js "Dragon Fusion")) = js "dragon fusion" ∧
     museumResponse (weaponsCatalog ["Dragon Fusion"]) [([], js "dragon fusion")]
        (memberPayload [.str (js "???")]) (js "u") =
      .ok { categories := [js "w"], counts := ⟨1, some 1, some 100⟩,
            missing := [⟨.canonical (js "Weapons"), .str (js "Dragon Fusion")⟩],
            hints := [] }) ∧
    (normalizeName (nameEntry (js "Old Dragon Fusion")).derivedName = js "old dragon fusion" ∧
     List.lookup (js "old dragon fusion") [(js "old dragon fusion", ([] : JsString))] =
       some [] ∧
     normalizeName (.str (js "???")) = [] ∧
     museumResponse (weaponsCatalog ["???"]) [(js "old dragon fusion", [])]
        (memberPayload [nameEntry (js "Old Dragon Fusion")]) (js "u") =
      .ok { categories := [js "w"], counts := ⟨1, some 1, some 100⟩,
            missing := [⟨.canonical (js "Weapons"), .str (js "???")⟩],
            hints := [] }) := by
  decide

/-! ## Inherited property names (C1, C2, C5) -/

/-- C1, the failing input. For the dataset `{"constructor": ["X"]}` the lookup
`targetCatsMap["constructor"]` finds the inherited `Object` function, which is truthy, so the
category is not skipped: `missing` gets an entry for "X" (its category is the function), where
the specification, for which "constructor" is outside the allow-list, has no entry. -/
theorem missing_has_inherited_category :
    museumResponse [(js "constructor", some [.str (js "X")])] [] noDonations (js "u") =
      .ok { categories := [], counts := ⟨0, some 1, some 0⟩,
            missing := [⟨.inherited (js "constructor"), .str (js "X")⟩], hints := [] } ∧
    specMissing [(js "constructor", some [.str (js "X")])] [] = [] := by
  decide

/-- C2, the failing input. For the dataset `{"Weapons": ["Sword"], "toString": ["Shield"]}`
the item of the category "toString" is counted: the total is 2, where the distinct keys of the
allow-listed categories are 1. -/
theorem total_counts_inherited_category :
    museumResponse
        [(js "Weapons", some [.str (js "Sword")]), (js "toString", some [.str (js "Shield")])]
        [] noDonations (js "u") =
      .ok { categories := [], counts := ⟨0, some 2, some 0⟩,
            missing := [⟨.canonical (js "Weapons"), .str (js "Sword")⟩,
                        ⟨.inherited (js "toString"), .str (js "Shield")⟩],
            hints := [] } ∧
    specTotal
        [(js "Weapons", some [.str (js "Sword")]), (js "toString", some [.str (js "Shield")])] =
      some 1 := by
  decide

/-- With an empty dataset, every request whose extraction returns gets the degraded response:
no total, no percentage, one hint, nothing missing, and the raw donated count. -/
theorem empty_catalog_response (al : AliasMap) (mj : MuseumJson) (uuid : JsString)
    (d : Donations) (h : extractDonations al mj uuid = .ok d) :
    museumResponse [] al mj uuid =
      .ok { categories := d.categories, counts := ⟨d.donatedCount, none, none⟩, missing := [],
            hints := ["Completion percentage requires a populated dataset; currently using raw donations only."] } := by
  rw [museumResponse_eq, h]
  rfl

/-- C5, the failing input. With an empty dataset and the payload
`{profile: {items: {constructor: {x: ...}}}}` the handler throws: `donatedByCategory` inherits
a property `constructor`, so `pushName` creates no `Set` and calls `add` on a function. The
request gets the 500 response, which has no counts at all. -/
theorem empty_catalog_inherited_category_throws :
    museumResponse [] [] constructorPayload (js "u") = .error .typeError := by
  decide

/-! ## The arithmetic of the completion percentage (C3) -/

theorem bitLenAux_bounds (fuel n : Nat) (h : n ≤ fuel) :
    n < 2 ^ bitLenAux fuel n ∧ (0 < n → 2 ^ (bitLenAux fuel n - 1) ≤ n) := by
  induction fuel generalizing n with
  | zero =>
    have : n = 0 := by omega
    subst this
    simp [bitLenAux]
  | succ fuel ih =>
    unfold bitLenAux
    by_cases hn : n = 0
    · subst hn
      simp
    · rw [if_neg hn]
      have hle : n / 2 ≤ fuel := by omega
      obtain ⟨h1, h2⟩ := ih (n / 2) hle
      refine ⟨?_, fun _ => ?_⟩
      · rw [pow_succ]
        omega
      · rw [Nat.add_sub_cancel]
        by_cases h0 : n / 2 = 0
        · have hb : bitLenAux fuel (n / 2) = 0 := by
            rw [h0]
            cases fuel <;> simp [bitLenAux]
          rw [hb]
          omega
        · have h3 := h2 (Nat.pos_of_ne_zero h0)
          have h4 : 0 < bitLenAux fuel (n / 2) := by
            by_contra hc
            have hz : bitLenAux fuel (n / 2) = 0 := by omega
            rw [hz] at h1
            omega
          have h5 : 2 ^ bitLenAux fuel (n / 2) = 2 * 2 ^ (bitLenAux fuel (n / 2) - 1) := by
            rw [← pow_succ']
            congr 1
            omega
          omega

theorem bitLen_bounds (n : Nat) (h : 0 < n) : 2 ^ (bitLen n - 1) ≤ n ∧ n < 2 ^ bitLen n :=
  ⟨(bitLenAux_bounds n n (Nat.le_refl n)).2 h, (bitLenAux_bounds n n (Nat.le_refl n)).1⟩

theorem roundHalfEven_near (n d : Nat) (hd : 0 < d) :
    2 * (roundHalfEven n d * d) ≤ 2 * n + d ∧ 2 * n ≤ 2 * (roundHalfEven n d * d) + d := by
  have hdiv := Nat.div_add_mod n d
  have hmod := Nat.mod_lt n hd
  unfold roundHalfEven
  simp only
  generalize n / d = q at hdiv ⊢
  generalize n % d = r at hdiv hmod ⊢
  have e1 : q * d = d * q := Nat.mul_comm _ _
  have e2 : (q + 1) * d = d * q + d := by ring
  generalize d * q = P at hdiv e1 e2
  split
  · rw [e1]; omega
  · split
    · rw [e2]; omega
    · split
      · rw [e1]; omega
      · rw [e2]; omega

/-- The scaled quotient is at least `2 ^ 52`. -/
theorem scaling_spec (a b : Nat) (ha : 0 < a) (hb : 0 < b) :
    2 ^ 52 * (b * 2 ^ (scaling a b).2) ≤ a * 2 ^ (scaling a b).1 := by
  obtain ⟨ha1, ha2⟩ := bitLen_bounds a ha
  obtain ⟨hb1, hb2⟩ := bitLen_bounds b hb
  have hla : 0 < bitLen a := by
    by_contra hc
    have hz : bitLen a = 0 := by omega
    rw [hz] at ha2
    omega
  have hbase : 2 ^ 52 * (b * 2 ^ (bitLen a - (53 + bitLen b))) ≤
      a * 2 ^ (53 + bitLen b - bitLen a) := by
    by_cases hc : bitLen a ≤ 53 + bitLen b
    · have e1 : bitLen a - (53 + bitLen b) = 0 := by omega
      rw [e1, pow_zero, Nat.mul_one]
      calc 2 ^ 52 * b ≤ 2 ^ 52 * 2 ^ bitLen b := Nat.mul_le_mul_left _ (Nat.le_of_lt hb2)
        _ = 2 ^ (bitLen a - 1) * 2 ^ (53 + bitLen b - bitLen a) := by
            rw [← pow_add, ← pow_add]
            congr 1
            omega
        _ ≤ a * 2 ^ (53 + bitLen b - bitLen a) := Nat.mul_le_mul_right _ ha1
    · have e1 : 53 + bitLen b - bitLen a = 0 := by omega
      rw [e1, pow_zero, Nat.mul_one]
      calc 2 ^ 52 * (b * 2 ^ (bitLen a - (53 + bitLen b)))
          ≤ 2 ^ 52 * (2 ^ bitLen b * 2 ^ (bitLen a - (53 + bitLen b))) :=
            Nat.mul_le_mul_left _ (Nat.mul_le_mul_right _ (Nat.le_of_lt hb2))
        _ = 2 ^ (bitLen a - 1) := by
            rw [← pow_add, ← pow_add]
            congr 1
            omega
        _ ≤ a := ha1
  unfold scaling
  simp only
  generalize 53 + bitLen b - bitLen a = up0 at hbase ⊢
  generalize bitLen a - (53 + bitLen b) = down0 at hbase ⊢
  by_cases hbig : 2 ^ 53 * (b * 2 ^ down0) ≤ a * 2 ^ up0
  · simp only [hbig, decide_True, if_true, Bool.true_and, beq_iff_eq]
    by_cases hz : up0 = 0
    · rw [if_pos hz]
      subst hz
      rw [pow_succ]
      simp only [pow_zero, Nat.mul_one, Nat.zero_sub] at hbig ⊢
      calc 2 ^ 52 * (b * (2 ^ down0 * 2)) = 2 ^ 53 * (b * 2 ^ down0) := by ring
        _ ≤ a := hbig
    · rw [if_neg hz]
      have e : 2 ^ up0 = 2 * 2 ^ (up0 - 1) := by
        rw [← pow_succ']
        congr 1
        omega
      rw [e] at hbig
      have : 2 * (2 ^ 52 * (b * 2 ^ down0)) ≤ 2 * (a * 2 ^ (up0 - 1)) := by
        calc 2 * (2 ^ 52 * (b * 2 ^ down0)) = 2 ^ 53 * (b * 2 ^ down0) := by ring
          _ ≤ a * (2 * 2 ^ (up0 - 1)) := hbig
          _ = 2 * (a * 2 ^ (up0 - 1)) := by ring
      omega
  · simp only [hbig, decide_False, Bool.false_eq_true, if_false, Bool.false_and]
    exact hbase

/-- The value of a rounded quotient. -/
theorem roundToDouble_val (a b : Nat) (ha : 0 < a) :
    (roundToDouble a b).val =
      (roundHalfEven (a * 2 ^ (scaling a b).1) (b * 2 ^ (scaling a b).2) : ℚ) *
        2 ^ (scaling a b).2 / 2 ^ (scaling a b).1 := by
  unfold roundToDouble Double.val
  rw [if_neg (by omega)]
  simp only
  push_cast
  rfl

/-- The relative error of a rounding is at most `2 ^ -53`. -/
theorem roundToDouble_err (a b : Nat) (ha : 0 < a) (hb : 0 < b) :
    |(roundToDouble a b).val - (a : ℚ) / b| ≤ (a : ℚ) / b / 2 ^ 53 := by
  rw [roundToDouble_val a b ha]
  have hs := scaling_spec a b ha hb
  generalize (scaling a b).1 = up at hs ⊢
  generalize (scaling a b).2 = down at hs ⊢
  have hdd : 0 < b * 2 ^ down := Nat.mul_pos hb (pow_pos (by norm_num) _)
  obtain ⟨h1, h2⟩ := roundHalfEven_near (a * 2 ^ up) (b * 2 ^ down) hdd
  generalize roundHalfEven (a * 2 ^ up) (b * 2 ^ down) = m at h1 h2 ⊢
  have hbq : (0 : ℚ) < b := by exact_mod_cast hb
  have hU : (0 : ℚ) < 2 ^ up := pow_pos (by norm_num) _
  have hD : (0 : ℚ) < 2 ^ down := pow_pos (by norm_num) _
  have h1q : (2 : ℚ) * (m * (b * 2 ^ down)) ≤ 2 * (a * 2 ^ up) + b * 2 ^ down := by
    exact_mod_cast h1
  have h2q : (2 : ℚ) * (a * 2 ^ up) ≤ 2 * (m * (b * 2 ^ down)) + b * 2 ^ down := by
    exact_mod_cast h2
  have hsq : (2 : ℚ) ^ 52 * (b * 2 ^ down) ≤ a * 2 ^ up := by exact_mod_cast hs
  have key : (m : ℚ) * 2 ^ down / 2 ^ up - a / b =
      (m * (b * 2 ^ down) - a * 2 ^ up) / (b * 2 ^ up) := by
    field_simp
    ring
  rw [key, abs_le]
  have hden : (0 : ℚ) < b * 2 ^ up := mul_pos hbq hU
  have hrhs : (a : ℚ) / b / 2 ^ 53 = (a * 2 ^ up / 2 ^ 53) / (b * 2 ^ up) := by
    field_simp
    ring
  rw [hrhs]
  have hhalf : (b : ℚ) * 2 ^ down / 2 ≤ a * 2 ^ up / 2 ^ 53 := by
    rw [div_le_div_iff₀ (by norm_num) (by norm_num)]
    nlinarith
  constructor
  · rw [← neg_div, div_le_div_iff₀ hden hden]
    nlinarith
  · rw [div_le_div_iff₀ hden hden]
    nlinarith

/-- The quotient that `Math.round` rounds is within `1 / (2 * t)` of the exact `100 * d / t`. -/
theorem timesHundred_divide_err (d t : Nat) (hd : 0 < d) (ht : 0 < t) (hsmall : d < 2 ^ 43) :
    |(timesHundred (divide d t)).val - 100 * (d : ℚ) / t| < 1 / (2 * t) := by
  have e1 := roundToDouble_err d t hd ht
  have hdq : (0 : ℚ) < d := by exact_mod_cast hd
  have htq : (0 : ℚ) < t := by exact_mod_cast ht
  have hx : (0 : ℚ) < (d : ℚ) / t := div_pos hdq htq
  have hsmallq : (d : ℚ) < 2 ^ 43 := by exact_mod_cast hsmall
  rw [abs_le] at e1
  unfold divide at *
  have hval : (roundToDouble d t).val = ((roundToDouble d t).num : ℚ) / 2 ^ (roundToDouble d t).exp :=
    rfl
  have hx1pos : 0 < (roundToDouble d t).val := by
    have : (d : ℚ) / t / 2 ^ 53 < (d : ℚ) / t := by
      rw [div_lt_iff₀ (by norm_num)]
      nlinarith
    linarith [e1.1]
  have hP : (0 : ℚ) < 2 ^ (roundToDouble d t).exp := pow_pos (by norm_num) _
  have hnum : 0 < (roundToDouble d t).num := by
    rw [hval] at hx1pos
    have h0 : (0 : ℚ) < ((roundToDouble d t).num : ℚ) := by
      by_contra hc
      have hle : ((roundToDouble d t).num : ℚ) ≤ 0 := not_lt.1 hc
      have := div_nonpos_of_nonpos_of_nonneg hle (le_of_lt hP)
      linarith
    exact_mod_cast h0
  have e2 := roundToDouble_err ((roundToDouble d t).num * 100) (2 ^ (roundToDouble d t).exp)
    (Nat.mul_pos hnum (by norm_num)) (pow_pos (by norm_num) _)
  have hab : (((roundToDouble d t).num * 100 : Nat) : ℚ) / ((2 ^ (roundToDouble d t).exp : Nat) : ℚ)
      = 100 * (roundToDouble d t).val := by
    rw [hval]
    push_cast
    ring
  rw [hab, abs_le] at e2
  unfold timesHundred
  generalize (roundToDouble ((roundToDouble d t).num * 100) (2 ^ (roundToDouble d t).exp)).val = x2
    at e2 ⊢
  generalize (roundToDouble d t).val = x1 at e1 e2 hx1pos
  have hxe : 100 * (d : ℚ) / t = 100 * ((d : ℚ) / t) := by ring
  rw [hxe]
  generalize hX : (d : ℚ) / t = X at e1 hx ⊢
  have hXt : X * t = d := by
    rw [← hX]
    field_simp
  have hbound : 600 * X < 2 ^ 53 * (1 / (2 * (t : ℚ))) * 2 := by
    have : (1 : ℚ) / (2 * t) * 2 = 1 / t := by
      field_simp
    rw [mul_assoc, this, ← hX]
    rw [mul_one_div, ← mul_div_assoc, div_lt_div_iff₀ htq htq]
    nlinarith
  have h53 : (0 : ℚ) < 2 ^ 53 := by norm_num
  have eX : X / 2 ^ 53 * 2 ^ 53 = X := by field_simp
  have eX1 : 100 * x1 / 2 ^ 53 * 2 ^ 53 = 100 * x1 := by field_simp
  rw [abs_lt]
  constructor <;> nlinarith [e1.1, e1.2, e2.1, e2.2]

theorem mathRound_floor (x : Double) :
    (mathRound x : ℚ) ≤ x.val + 1 / 2 ∧ x.val + 1 / 2 < mathRound x + 1 := by
  unfold mathRound Double.val
  have hD : 0 < 2 * 2 ^ x.exp := Nat.mul_pos (by norm_num) (pow_pos (by norm_num) _)
  have h1 := Nat.div_mul_le_self (2 * x.num + 2 ^ x.exp) (2 * 2 ^ x.exp)
  have h2 := Nat.lt_div_mul_add (a := 2 * x.num + 2 ^ x.exp) hD
  generalize (2 * x.num + 2 ^ x.exp) / (2 * 2 ^ x.exp) = p at h1 h2 ⊢
  have hP : (0 : ℚ) < 2 ^ x.exp := pow_pos (by norm_num) _
  have h1q : (p : ℚ) * (2 * 2 ^ x.exp) ≤ 2 * x.num + 2 ^ x.exp := by exact_mod_cast h1
  have h2q : (2 : ℚ) * x.num + 2 ^ x.exp < p * (2 * 2 ^ x.exp) + 2 * 2 ^ x.exp := by
    exact_mod_cast h2
  constructor
  · rw [div_add_div _ _ (ne_of_gt hP) (by norm_num), le_div_iff₀ (by positivity)]
    nlinarith
  · rw [div_add_div _ _ (ne_of_gt hP) (by norm_num), div_lt_iff₀ (by positivity)]
    nlinarith

theorem exactRound_floor (d t : Nat) (ht : 0 < t) :
    (exactRound d t : ℚ) + ((200 * d + t) % (2 * t) : Nat) / (2 * t) = 100 * (d : ℚ) / t + 1 / 2 ∧
    (200 * d + t) % (2 * t) + 1 ≤ 2 * t := by
  unfold exactRound
  have hD : 0 < 2 * t := by omega
  have hdiv := Nat.div_add_mod (200 * d + t) (2 * t)
  have hmod := Nat.mod_lt (200 * d + t) hD
  generalize (200 * d + t) / (2 * t) = R at hdiv ⊢
  generalize (200 * d + t) % (2 * t) = rem at hdiv hmod ⊢
  refine ⟨?_, by omega⟩
  have htq : (0 : ℚ) < t := by exact_mod_cast ht
  have hq : (2 : ℚ) * t * R + rem = 200 * d + t := by exact_mod_cast hdiv
  field_simp
  nlinarith

/-- The completion percentage against the exact rounding: never above it, at most one below
it, and equal to it unless `100 * d / t` lies exactly half way between two integers. -/
theorem completionPct_near (d t : Nat) (ht : 0 < t) (hsmall : d < 2 ^ 43) :
    ∃ p, completionPct d t = some p ∧ p ≤ exactRound d t ∧ exactRound d t ≤ p + 1 ∧
      ((200 * d + t) % (2 * t) ≠ 0 → p = exactRound d t) := by
  unfold completionPct
  rw [if_pos ht]
  refine ⟨_, rfl, ?_⟩
  rcases Nat.eq_zero_or_pos d with hd | hd
  · subst hd
    have e : mathRound (timesHundred (divide 0 t)) = 0 := by
      simp [divide, timesHundred, roundToDouble, mathRound]
    have e2 : exactRound 0 t = 0 := by
      unfold exactRound
      rw [Nat.mul_zero, Nat.zero_add]
      exact Nat.div_eq_of_lt (by omega)
    rw [e, e2]
    simp
  · have herr := timesHundred_divide_err d t hd ht hsmall
    obtain ⟨f1, f2⟩ := mathRound_floor (timesHundred (divide d t))
    obtain ⟨g1, g2⟩ := exactRound_floor d t ht
    rw [abs_lt] at herr
    generalize (timesHundred (divide d t)).val = x2 at herr f1 f2
    generalize mathRound (timesHundred (divide d t)) = p at f1 f2 ⊢
    generalize exactRound d t = R at g1 ⊢
    generalize (200 * d + t) % (2 * t) = rem at g1 g2 ⊢
    have htq : (0 : ℚ) < t := by exact_mod_cast ht
    have hremq : (rem : ℚ) + 1 ≤ 2 * t := by exact_mod_cast g2
    have hrem0 : (0 : ℚ) ≤ rem := Nat.cast_nonneg _
    have h2t : (0 : ℚ) < 2 * t := by linarith
    have hr1 : (rem : ℚ) / (2 * t) ≤ 1 - 1 / (2 * t) := by
      rw [div_le_iff₀ h2t, sub_mul, one_mul, one_div, inv_mul_cancel₀ (ne_of_gt h2t)]
      linarith
    have hr0 : (0 : ℚ) ≤ (rem : ℚ) / (2 * t) := div_nonneg hrem0 (le_of_lt h2t)
    have hinv : (0 : ℚ) < 1 / (2 * t) := by positivity
    have hinv1 : (1 : ℚ) / (2 * t) ≤ 1 := by
      rw [div_le_iff₀ h2t]
      have : (1 : ℚ) ≤ t := by exact_mod_cast ht
      linarith
    refine ⟨?_, ?_, ?_⟩
    · have : (p : ℚ) < R + 1 := by linarith [herr.2]
      exact_mod_cast Nat.lt_succ_iff.1 (by exact_mod_cast this)
    · have : (R : ℚ) < p + 1 + 1 := by linarith [herr.1]
      have h3 : R < p + 1 + 1 := by exact_mod_cast this
      omega
    · intro hne
      have hrem1 : (1 : ℚ) ≤ rem := by
        have : 1 ≤ rem := Nat.one_le_iff_ne_zero.2 hne
        exact_mod_cast this
      have hr2 : (1 : ℚ) / (2 * t) ≤ (rem : ℚ) / (2 * t) :=
        div_le_div_of_nonneg_right hrem1 (le_of_lt h2t)
      have h4 : (p : ℚ) < R + 1 := by linarith [herr.2]
      have h5 : (R : ℚ) < p + 1 := by linarith [herr.1]
      have h4' : p < R + 1 := by exact_mod_cast h4
      have h5' : R < p + 1 := by exact_mod_cast h5
      omega

theorem lookup_mem {β : Type} (l : List (JsString × β)) (k : JsString) (v : β)
    (h : l.lookup k = some v) : (k, v) ∈ l := by
  induction l with
  | nil => simp at h
  | cons p l ih =>
    obtain ⟨k', v'⟩ := p
    rw [List.lookup_cons] at h
    cases hk : (k == k') with
    | true =>
      rw [hk] at h
      have e : k = k' := by simpa using hk
      cases h
      rw [e]
      exact List.mem_cons_self _ _
    | false =>
      rw [hk] at h
      exact List.mem_cons_of_mem _ (ih h)

/-- On the allow-list the lookup of line 212 gives the mapped category. -/
theorem lookupTargetCat_of_allowList (c m : JsString) (h : allowList.lookup c = some m) :
    lookupTargetCat c = some (.canonical m) := by
  have hm := lookup_mem _ _ _ h
  unfold lookupTargetCat
  rw [show targetCatsMap = allowList from rfl, h]
  simp only [allowList, List.mem_cons, Prod.mk.injEq, List.mem_singleton, List.not_mem_nil,
    or_false] at hm
  rcases hm with ⟨-, rfl⟩ | ⟨-, rfl⟩ | ⟨-, rfl⟩ | ⟨-, rfl⟩ | ⟨-, rfl⟩ <;> rfl

theorem reconcileItem_unique (all : List JsString) (mc : MappedCat) (r : Reconciliation)
    (it : JsVal) : (reconcileItem all mc r it).uniqueDatasetItems ≠ [] := by
  unfold reconcileItem
  by_cases h1 : normalizeName it ∈ r.uniqueDatasetItems <;>
    by_cases h2 : normalizeName it ∈ all <;>
    by_cases h3 : mc.text ++ js "|" ++ normalizeName it ∈ r.seenMissing <;>
    simp only [h1, h2, h3, if_true, if_false] <;>
    first
    | exact List.ne_nil_of_mem h1
    | simp

theorem reconcileItem_unique_mono (all : List JsString) (mc : MappedCat) (l : List JsVal)
    (r : Reconciliation) (h : r.uniqueDatasetItems ≠ []) :
    (l.foldl (reconcileItem all mc) r).uniqueDatasetItems ≠ [] := by
  induction l generalizing r with
  | nil => exact h
  | cons it l ih => exact ih _ (reconcileItem_unique all mc r it)

theorem reconcileCategory_unique_mono (all : List JsString) (cat : Catalog)
    (r : Reconciliation) (h : r.uniqueDatasetItems ≠ []) :
    (cat.foldl (reconcileCategory all) r).uniqueDatasetItems ≠ [] := by
  induction cat generalizing r with
  | nil => exact h
  | cons e cat ih =>
    apply ih
    unfold reconcileCategory
    split
    · exact h
    · exact reconcileItem_unique_mono all _ _ r h

theorem foldl_reconcileCategory_unique (all : List JsString) (cat : Catalog)
    (r : Reconciliation) (h : specPairs cat ≠ []) :
    (cat.foldl (reconcileCategory all) r).uniqueDatasetItems ≠ [] := by
  induction cat generalizing r with
  | nil => exact absurd rfl h
  | cons e cat ih =>
    rw [List.foldl_cons]
    by_cases he : specPairs cat = []
    · apply reconcileCategory_unique_mono
      unfold specPairs at h he
      rw [List.flatMap_cons, he, List.append_nil] at h
      cases hl : allowList.lookup e.1 with
      | none => rw [hl] at h; exact absurd rfl h
      | some m =>
        rw [hl] at h
        unfold reconcileCategory
        rw [lookupTargetCat_of_allowList _ _ hl]
        cases hi : e.2.getD [] with
        | nil => rw [hi] at h; exact absurd rfl h
        | cons it l =>
          exact reconcileItem_unique_mono all _ l _ (reconcileItem_unique all _ r it)
    · exact ih _ he

/-- A dataset with an item in an allow-listed category has a unique-item set that is not
empty. -/
theorem reconcile_unique (all : List JsString) (cat : Catalog) (h : specPairs cat ≠ []) :
    0 < (reconcile all cat).uniqueDatasetItems.length :=
  List.length_pos.2 (foldl_reconcileCategory_unique all cat _ h)

/-! ## The reconciliation against its specification

For a dataset none of whose category names is inherited from `Object.prototype`, the loop
computes what the specification states. -/

theorem allowList_values (c m : JsString) (h : allowList.lookup c = some m) :
    m ∈ canonicalCategories := by
  have hm := lookup_mem _ _ _ h
  simp only [allowList, List.mem_cons, Prod.mk.injEq, List.mem_singleton, List.not_mem_nil,
    or_false] at hm
  rcases hm with ⟨-, rfl⟩ | ⟨-, rfl⟩ | ⟨-, rfl⟩ | ⟨-, rfl⟩ | ⟨-, rfl⟩ <;> decide

theorem specPairs_canonical (cat : Catalog) :
    ∀ p ∈ specPairs cat, p.1 ∈ canonicalCategories := by
  intro p hp
  unfold specPairs at hp
  rw [List.mem_flatMap] at hp
  obtain ⟨e, -, he⟩ := hp
  cases hl : allowList.lookup e.1 with
  | none => rw [hl] at he; simp at he
  | some m =>
    rw [hl] at he
    simp only [List.mem_map] at he
    obtain ⟨it, -, rfl⟩ := he
    exact allowList_values _ _ hl

/-- The key of line 223 determines the canonical category and the normalised name. -/
theorem key_injective (m m' n n' : JsString) (hm : m ∈ canonicalCategories)
    (hm' : m' ∈ canonicalCategories) (h : m ++ js "|" ++ n = m' ++ js "|" ++ n') :
    m = m' ∧ n = n' := by
  have e1 : js "Weapons" = [87, 101, 97, 112, 111, 110, 115] := by decide
  have e2 : js "Armor Sets" = [65, 114, 109, 111, 114, 32, 83, 101, 116, 115] := by decide
  have e3 : js "Rarities" = [82, 97, 114, 105, 116, 105, 101, 115] := by decide
  have e4 : js "Special" = [83, 112, 101, 99, 105, 97, 108] := by decide
  have e5 : js "|" = [124] := by decide
  simp only [canonicalCategories, List.mem_cons, List.mem_singleton, List.not_mem_nil,
    or_false] at hm hm'
  rcases hm with rfl | rfl | rfl | rfl <;> rcases hm' with rfl | rfl | rfl | rfl <;>
    simp only [e1, e2, e3, e4, e5, List.cons_append, List.nil_append, List.cons.injEq,
      true_and, and_true] at h ⊢ <;>
    first
    | exact h
    | exact absurd h.1 (by decide)

theorem reconcileCategory_eq (all : List JsString) (r : Reconciliation)
    (e : JsString × Option (List JsVal)) (h : e.1 ∉ objectPrototypeKeys) :
    reconcileCategory all r e = (specPairs [e]).foldl (reconcilePair all) r := by
  unfold reconcileCategory specPairs
  simp only [List.flatMap_cons, List.flatMap_nil, List.append_nil]
  cases hl : allowList.lookup e.1 with
  | some m =>
    rw [lookupTargetCat_of_allowList _ _ hl]
    simp only [List.foldl_map]
    rfl
  | none =>
    have : lookupTargetCat e.1 = none := by
      unfold lookupTargetCat
      rw [show targetCatsMap = allowList from rfl, hl]
      simp [h]
    rw [this]
    rfl

theorem specPairs_cons (e : JsString × Option (List JsVal)) (cat : Catalog) :
    specPairs (e :: cat) = specPairs [e] ++ specPairs cat := by
  simp [specPairs]

/-- The reconciliation loop is the flattened loop over the allow-listed pairs. -/
theorem foldl_reconcileCategory_eq (all : List JsString) (cat : Catalog) (r : Reconciliation)
    (h : ∀ e ∈ cat, e.1 ∉ objectPrototypeKeys) :
    cat.foldl (reconcileCategory all) r = (specPairs cat).foldl (reconcilePair all) r := by
  induction cat generalizing r with
  | nil => rfl
  | cons e cat ih =>
    rw [List.foldl_cons, specPairs_cons, List.foldl_append,
      reconcileCategory_eq all r e (h e (List.mem_cons_self _ _))]
    exact ih _ fun e' he' => h e' (List.mem_cons_of_mem _ he')

theorem reconcilePair_unique (all : List JsString) (r : Reconciliation) (p : JsString × JsVal) :
    (reconcilePair all r p).uniqueDatasetItems = setAdd r.uniqueDatasetItems (normalizeName p.2) := by
  unfold reconcilePair reconcileItem setAdd
  by_cases h1 : normalizeName p.2 ∈ r.uniqueDatasetItems <;>
    by_cases h2 : normalizeName p.2 ∈ all <;>
    by_cases h3 : (MappedCat.canonical p.1).text ++ js "|" ++ normalizeName p.2 ∈ r.seenMissing <;>
    simp only [h1, h2, h3, if_true, if_false]

theorem foldl_reconcilePair_unique (all : List JsString) (l : List (JsString × JsVal))
    (r : Reconciliation) :
    (l.foldl (reconcilePair all) r).uniqueDatasetItems =
      (l.map fun p => normalizeName p.2).foldl setAdd r.uniqueDatasetItems := by
  induction l generalizing r with
  | nil => rfl
  | cons p l ih =>
    rw [List.foldl_cons, ih, reconcilePair_unique]
    rfl

theorem foldl_setAdd (l u : List JsString) (hu : u.Nodup) :
    (l.foldl setAdd u).Nodup ∧ ∀ x, x ∈ l.foldl setAdd u ↔ x ∈ u ∨ x ∈ l := by
  induction l generalizing u with
  | nil => simpa using hu
  | cons a l ih =>
    have hn : (setAdd u a).Nodup := by
      unfold setAdd
      split
      · exact hu
      · rename_i hna
        exact List.Nodup.append hu (List.nodup_singleton a) (by simpa using hna)
    obtain ⟨h1, h2⟩ := ih (setAdd u a) hn
    refine ⟨h1, fun x => ?_⟩
    rw [List.foldl_cons, h2, mem_setAdd, List.mem_cons]
    tauto

/-- The number of unique dataset items is the number of distinct keys of the allow-listed
pairs. -/
theorem reconcile_unique_length (all : List JsString) (cat : Catalog)
    (h : ∀ e ∈ cat, e.1 ∉ objectPrototypeKeys) :
    (reconcile all cat).uniqueDatasetItems.length =
      ((specPairs cat).map fun p => normalizeName p.2).dedup.length := by
  unfold reconcile
  rw [foldl_reconcileCategory_eq all cat _ h, foldl_reconcilePair_unique]
  obtain ⟨h1, h2⟩ := foldl_setAdd ((specPairs cat).map fun p => normalizeName p.2) []
    List.nodup_nil
  apply List.Perm.length_eq
  rw [show Reconciliation.init.uniqueDatasetItems = [] from rfl,
    List.perm_ext_iff_of_nodup h1 (List.nodup_dedup _)]
  intro x
  rw [h2, List.mem_dedup]
  simp

theorem reconcilePair_missing (all : List JsString) (r : Reconciliation)
    (p : JsString × JsVal) :
    (reconcilePair all r p).missing =
      (if normalizeName p.2 ∈ all then r.missing
       else if p.1 ++ js "|" ++ normalizeName p.2 ∈ r.seenMissing then r.missing
       else r.missing ++ [missingEntryOf p]) ∧
    (reconcilePair all r p).seenMissing =
      (if normalizeName p.2 ∈ all then r.seenMissing
       else if p.1 ++ js "|" ++ normalizeName p.2 ∈ r.seenMissing then r.seenMissing
       else r.seenMissing ++ [p.1 ++ js "|" ++ normalizeName p.2]) := by
  unfold reconcilePair reconcileItem missingEntryOf
  simp only [MappedCat.text]
  by_cases h1 : normalizeName p.2 ∈ r.uniqueDatasetItems <;>
    by_cases h2 : normalizeName p.2 ∈ all <;>
    by_cases h3 : p.1 ++ js "|" ++ normalizeName p.2 ∈ r.seenMissing <;>
    simp only [h1, h2, h3, if_true, if_false, and_self]

/-- The `missing` list of the flattened loop, started in a state whose `seenMissing` holds the
keys of the pairs in `seen`. -/
theorem foldl_reconcilePair_missing (all : List JsString) (l : List (JsString × JsVal))
    (hl : ∀ p ∈ l, p.1 ∈ canonicalCategories) (r : Reconciliation)
    (seen : List (JsString × JsString))
    (hseen : ∀ m ∈ canonicalCategories, ∀ n,
      (m, n) ∈ seen ↔ m ++ js "|" ++ n ∈ r.seenMissing) :
    (l.foldl (reconcilePair all) r).missing =
      r.missing ++
        (firstPerKey seen (l.filter fun p => decide (normalizeName p.2 ∉ all))).map
          missingEntryOf := by
  induction l generalizing r seen with
  | nil => simp [firstPerKey]
  | cons p l ih =>
    have hp := hl p (List.mem_cons_self _ _)
    have hl' : ∀ q ∈ l, q.1 ∈ canonicalCategories := fun q hq => hl q (List.mem_cons_of_mem _ hq)
    obtain ⟨a1, a2⟩ := reconcilePair_missing all r p
    rw [List.foldl_cons]
    by_cases h2 : normalizeName p.2 ∈ all
    · rw [if_pos h2] at a1 a2
      have hf : (p :: l).filter (fun p => decide (normalizeName p.2 ∉ all)) =
          l.filter fun p => decide (normalizeName p.2 ∉ all) := by
        rw [List.filter_cons_of_neg]
        simpa using h2
      rw [hf, ih hl' _ seen (by rw [a2]; exact hseen), a1]
    · rw [if_neg h2] at a1 a2
      have hf : (p :: l).filter (fun p => decide (normalizeName p.2 ∉ all)) =
          p :: l.filter fun p => decide (normalizeName p.2 ∉ all) := by
        rw [List.filter_cons_of_pos]
        simpa using h2
      rw [hf]
      by_cases h3 : p.1 ++ js "|" ++ normalizeName p.2 ∈ r.seenMissing
      · rw [if_pos h3] at a1 a2
        have hin : (p.1, normalizeName p.2) ∈ seen := (hseen p.1 hp _).2 h3
        rw [firstPerKey, if_pos hin, ih hl' _ seen (by rw [a2]; exact hseen), a1]
      · rw [if_neg h3] at a1 a2
        have hin : (p.1, normalizeName p.2) ∉ seen := fun hc => h3 ((hseen p.1 hp _).1 hc)
        rw [firstPerKey, if_neg hin, ih hl' _ ((p.1, normalizeName p.2) :: seen), a1]
        · simp
        · intro m hm n
          rw [a2, List.mem_cons, List.mem_append, List.mem_singleton, hseen m hm n,
            Prod.mk.injEq]
          constructor
          · rintro (⟨rfl, rfl⟩ | h)
            · exact Or.inr rfl
            · exact Or.inl h
          · rintro (h | h)
            · exact Or.inr h
            · exact Or.inl (key_injective m p.1 n _ hm hp h)

/-- For a dataset none of whose category names is inherited from `Object.prototype`, the
reconciliation computes the `missing` list and the total the specification states. -/
theorem reconcile_refines_spec (all : List JsString) (cat : Catalog)
    (h : ∀ e ∈ cat, e.1 ∉ objectPrototypeKeys) :
    (reconcile all cat).missing = (specMissing cat all).map missingEntryOf ∧
    (if (reconcile all cat).uniqueDatasetItems.length > 0 then
        some (reconcile all cat).uniqueDatasetItems.length else none) = specTotal cat := by
  constructor
  · unfold reconcile specMissing
    rw [foldl_reconcileCategory_eq all cat _ h,
      foldl_reconcilePair_missing all _ (specPairs_canonical cat) _ []]
    · rfl
    · intro m _ n
      simp [Reconciliation.init]
  · rw [reconcile_unique_length all cat h]
    unfold specTotal
    simp only
    split
    · rw [if_neg (by omega)]
    · rw [if_pos (by omega)]

/-- The response against the specification of the reconciliation, for a dataset none of whose
category names is inherited from `Object.prototype` and a request whose extraction returns. -/
theorem museumResponse_refines_spec (cat : Catalog) (al : AliasMap) (mj : MuseumJson)
    (uuid : JsString) (d : Donations) (hcat : ∀ e ∈ cat, e.1 ∉ objectPrototypeKeys)
    (hd : extractDonations al mj uuid = .ok d) :
    ∃ r, museumResponse cat al mj uuid = .ok r ∧
      r.missing = (specMissing cat d.donatedAll).map missingEntryOf ∧
      r.counts.total = specTotal cat ∧ r.counts.donated = d.donatedCount := by
  refine ⟨responseOf cat d, ?_, ?_, ?_, rfl⟩
  · rw [museumResponse_eq, hd]
    rfl
  · exact (reconcile_refines_spec d.donatedAll cat hcat).1
  · exact (reconcile_refines_spec d.donatedAll cat hcat).2

/-- The example of the specification: "Shiny Prism" listed under both "Special" and
"Special Items" counts once and is missing once, under "Special". -/
theorem shiny_prism_counted_once :
    museumResponse
        [(js "Special", some [.str (js "Shiny Prism")]),
         (js "Special Items", some [.str (js "Shiny Prism")])] [] noDonations (js "u") =
      .ok { categories := [], counts := ⟨0, some 1, some 0⟩,
            missing := [⟨.canonical (js "Special"), .str (js "Shiny Prism")⟩], hints := [] } := by
  decide

/-! ## `selectProfile` (C11, C12) -/

theorem head?_insertSorted {α : Type} (cmp : α → α → Int) (x : α) (l : List α) :
    (insertSorted cmp x l).head? =
      some (match l.head? with
        | none => x
        | some y => if cmp x y ≤ 0 then x else y) := by
  cases l with
  | nil => rfl
  | cons y rest =>
    simp only [insertSorted, List.head?_cons]
    split <;> rfl

/-- The first element of the sorted list of a non-empty profile list is a profile with the
largest timestamp, and the earliest such profile. -/
theorem head?_stableSort_latest (key : Profile → Int) (ps : List Profile) (hne : ps ≠ []) :
    ∃ i, ∃ h : i < ps.length,
      (stableSort byLastSaveDesc (ps.map fun p => (p, key p))).head? =
        some (ps.get ⟨i, h⟩, key (ps.get ⟨i, h⟩)) ∧
      (∀ p ∈ ps, key p ≤ key (ps.get ⟨i, h⟩)) ∧
      (∀ j, ∀ hj : j < ps.length, j < i → key (ps.get ⟨j, hj⟩) < key (ps.get ⟨i, h⟩)) := by
  induction ps with
  | nil => exact absurd rfl hne
  | cons e l ih =>
    simp only [List.map_cons, stableSort, head?_insertSorted]
    by_cases hl : l = []
    · subst hl
      refine ⟨0, by simp, by simp [stableSort], ?_, ?_⟩
      · intro p hp
        simp only [List.mem_singleton] at hp
        subst hp
        exact le_refl _
      · intro j _ hj
        exact absurd hj (Nat.not_lt_zero _)
    · obtain ⟨i, h, h1, h2, h3⟩ := ih hl
      rw [h1]
      by_cases hc : byLastSaveDesc (e, key e) (l.get ⟨i, h⟩, key (l.get ⟨i, h⟩)) ≤ 0
      · have hle : key (l.get ⟨i, h⟩) ≤ key e := by
          simp only [byLastSaveDesc] at hc
          omega
        refine ⟨0, by simp, ?_, ?_, ?_⟩
        · show some (if _ then _ else _) = _
          rw [if_pos hc]
          rfl
        · intro p hp
          rcases List.mem_cons.1 hp with rfl | hp
          · exact le_refl _
          · exact le_trans (h2 p hp) hle
        · intro j _ hj
          exact absurd hj (Nat.not_lt_zero _)
      · have hlt : key e < key (l.get ⟨i, h⟩) := by
          simp only [byLastSaveDesc] at hc
          omega
        refine ⟨i + 1, by simp [h], ?_, ?_, ?_⟩
        · show some (if _ then _ else _) = _
          rw [if_neg hc]
          rfl
        · intro p hp
          rcases List.mem_cons.1 hp with rfl | hp
          · exact le_of_lt hlt
          · exact h2 p hp
        · intro j hj hji
          cases j with
          | zero => exact hlt
          | succ j =>
            have hj' : j < l.length := by simpa using hj
            exact h3 j hj' (by omega)

theorem find?_selected_none (ps : List Profile) (h : ∀ p ∈ ps, p.selected = false) :
    ps.find? (fun p => p.selected) = none := by
  rw [List.find?_eq_none]
  intro p hp
  simp [h p hp]

/-- C11. For a non-empty profile list in which no profile carries a "selected" flag,
`selectProfile` returns the profile with the largest `last_save` under the member key (the
identifier without hyphens; 0 when the member entry or the timestamp is absent), and among the
profiles with the largest timestamp the earliest one; so when every timestamp is absent or zero
it returns the first profile. -/
theorem selectProfile_latest (ps : List Profile) (uuid : JsString) (hne : ps ≠ [])
    (hflag : ∀ p ∈ ps, p.selected = false) :
    (∃ i, ∃ h : i < ps.length,
      selectProfile (some ps) uuid = .profile (ps.get ⟨i, h⟩) ∧
      (∀ p ∈ ps, lastSaveOf uuid p ≤ lastSaveOf uuid (ps.get ⟨i, h⟩)) ∧
      (∀ j, ∀ hj : j < ps.length, j < i →
        lastSaveOf uuid (ps.get ⟨j, hj⟩) < lastSaveOf uuid (ps.get ⟨i, h⟩))) ∧
    ((∀ p ∈ ps, lastSaveOf uuid p = 0) →
      selectProfile (some ps) uuid = .profile (ps.head hne)) := by
  obtain ⟨i, h, h1, h2, h3⟩ := head?_stableSort_latest (lastSaveOf uuid) ps hne
  have hsel : selectProfile (some ps) uuid = .profile (ps.get ⟨i, h⟩) := by
    simp only [selectProfile, find?_selected_none ps hflag, h1]
  refine ⟨⟨i, h, hsel, h2, h3⟩, ?_⟩
  intro hzero
  have hi : i = 0 := by
    by_contra hc
    have hpos : 0 < i := Nat.pos_of_ne_zero hc
    have := h3 0 (by omega) hpos
    rw [hzero _ (List.get_mem _ _ _), hzero _ (List.get_mem _ _ _)] at this
    exact absurd this (lt_irrefl _)
  subst hi
  rw [hsel]
  cases ps with
  | nil => exact absurd rfl hne
  | cons p l => rfl

/-- C11, the instances of the specification: of two profiles without a flag the one saved later
wins, also against an earlier one in the list; without any timestamp the first one wins. -/
theorem selectProfile_latest_witness :
    [savedProfile "p1" 5, savedProfile "p2" 9, savedProfile "p3" 9] ≠ [] ∧
    (∀ p ∈ [savedProfile "p1" 5, savedProfile "p2" 9, savedProfile "p3" 9],
      p.selected = false) ∧
    selectProfile (some [savedProfile "p1" 5, savedProfile "p2" 9, savedProfile "p3" 9])
      (js "a-b") = .profile (savedProfile "p2" 9) ∧
    ((∀ p ∈ [bareProfile "p1", bareProfile "p2"], lastSaveOf (js "a-b") p = 0) →
      selectProfile (some [bareProfile "p1", bareProfile "p2"]) (js "a-b") =
        .profile (bareProfile "p1")) :=
  ⟨by decide, by decide, by decide,
   (selectProfile_latest [bareProfile "p1", bareProfile "p2"] (js "a-b") (by decide)
      (by decide)).2⟩

theorem find?_first (f : Profile → Bool) (ps : List Profile) (h : ∃ p ∈ ps, f p = true) :
    ∃ i, ∃ hi : i < ps.length, ps.find? f = some (ps.get ⟨i, hi⟩) ∧
      f (ps.get ⟨i, hi⟩) = true ∧
      ∀ j, ∀ hj : j < ps.length, j < i → f (ps.get ⟨j, hj⟩) = false := by
  induction ps with
  | nil =>
    obtain ⟨p, hp, -⟩ := h
    simp at hp
  | cons e l ih =>
    by_cases he : f e = true
    · refine ⟨0, by simp, ?_, he, ?_⟩
      · rw [List.find?_cons_of_pos _ he]
        rfl
      · intro j _ hj
        exact absurd hj (Nat.not_lt_zero _)
    · have hl : ∃ p ∈ l, f p = true := by
        obtain ⟨p, hp, hfp⟩ := h
        rcases List.mem_cons.1 hp with rfl | hp
        · exact absurd hfp he
        · exact ⟨p, hp, hfp⟩
      obtain ⟨i, hi, h1, h2, h3⟩ := ih hl
      refine ⟨i + 1, by simp [hi], ?_, h2, ?_⟩
      · rw [List.find?_cons_of_neg _ he, h1]
        rfl
      · intro j hj hji
        cases j with
        | zero => simpa using he
        | succ j =>
          have hj' : j < l.length := by simpa using hj
          exact h3 j hj' (by omega)

/-- C12, as amended. For a profile list in which at least one profile carries a "selected"
flag, `selectProfile` returns the first flagged profile in input order, whatever the timestamps
are. It returns `null` when the input is not a list and `undefined` when the list is empty;
both are falsy, which is what the handler tests. -/
theorem selectProfile_selected (ps : List Profile) (uuid : JsString) :
    ((∃ p ∈ ps, p.selected = true) →
      ∃ i, ∃ hi : i < ps.length,
        selectProfile (some ps) uuid = .profile (ps.get ⟨i, hi⟩) ∧
        (ps.get ⟨i, hi⟩).selected = true ∧
        ∀ j, ∀ hj : j < ps.length, j < i → (ps.get ⟨j, hj⟩).selected = false) ∧
    selectProfile none uuid = .null ∧
    selectProfile (some []) uuid = .undefined ∧
    Selected.null.truthy = false ∧ Selected.undefined.truthy = false := by
  refine ⟨?_, rfl, rfl, rfl, rfl⟩
  intro hsel
  obtain ⟨i, hi, h1, h2, h3⟩ := find?_first (fun p => p.selected) ps hsel
  refine ⟨i, hi, ?_, h2, h3⟩
  simp only [selectProfile, h1]

/-- C12, an instance: the first flagged profile wins against an earlier profile saved later and
against a later flagged profile. -/
theorem selectProfile_selected_witness :
    (∃ p ∈ [savedProfile "p1" 9, flaggedProfile "p2" 5, flaggedProfile "p3" 7],
      p.selected = true) ∧
    selectProfile (some [savedProfile "p1" 9, flaggedProfile "p2" 5, flaggedProfile "p3" 7])
      (js "a-b") = .profile (flaggedProfile "p2" 5) ∧
    selectProfile none (js "a-b") = .null ∧
    selectProfile (some []) (js "a-b") = .undefined :=
  ⟨by decide, by decide,
   (selectProfile_selected [savedProfile "p1" 9, flaggedProfile "p2" 5, flaggedProfile "p3" 7]
      (js "a-b")).2.1,
   (selectProfile_selected [savedProfile "p1" 9, flaggedProfile "p2" 5, flaggedProfile "p3" 7]
      (js "a-b")).2.2.1⟩

/-- C12 as stated fails for the empty list: no profile is flagged, the sorted list is empty and
`withLastSave[0]?.profile || profiles[0]` is `undefined`, not `null`. -/
theorem selectProfile_empty_undefined :
    selectProfile (some []) (js "a-b") = .undefined ∧
    selectProfile (some []) (js "a-b") ≠ .null := by
  decide

/-! ## The range of the completion percentage (C13) -/

/-- The double that `Math.round` rounds exceeds the exact `100 * d / t` by a factor of at most
`(1 + 2 ^ -53) ^ 2`. -/
theorem timesHundred_divide_le (d t : Nat) (hd : 0 < d) (ht : 0 < t) :
    (timesHundred (divide d t)).val ≤ 100 * ((d : ℚ) / t) * (1 + 1 / 2 ^ 53) ^ 2 := by
  have e1 := roundToDouble_err d t hd ht
  have hdq : (0 : ℚ) < d := by exact_mod_cast hd
  have htq : (0 : ℚ) < t := by exact_mod_cast ht
  have hx : (0 : ℚ) < (d : ℚ) / t := div_pos hdq htq
  rw [abs_le] at e1
  unfold divide at *
  have hval : (roundToDouble d t).val =
      ((roundToDouble d t).num : ℚ) / 2 ^ (roundToDouble d t).exp := rfl
  have hx1pos : 0 < (roundToDouble d t).val := by
    have : (d : ℚ) / t / 2 ^ 53 < (d : ℚ) / t := by
      rw [div_lt_iff₀ (by norm_num)]
      nlinarith
    linarith [e1.1]
  have hP : (0 : ℚ) < 2 ^ (roundToDouble d t).exp := pow_pos (by norm_num) _
  have hnum : 0 < (roundToDouble d t).num := by
    rw [hval] at hx1pos
    have h0 : (0 : ℚ) < ((roundToDouble d t).num : ℚ) := by
      by_contra hc
      have hle : ((roundToDouble d t).num : ℚ) ≤ 0 := not_lt.1 hc
      have := div_nonpos_of_nonpos_of_nonneg hle (le_of_lt hP)
      linarith
    exact_mod_cast h0
  have e2 := roundToDouble_err ((roundToDouble d t).num * 100) (2 ^ (roundToDouble d t).exp)
    (Nat.mul_pos hnum (by norm_num)) (pow_pos (by norm_num) _)
  have hab : (((roundToDouble d t).num * 100 : Nat) : ℚ) /
      ((2 ^ (roundToDouble d t).exp : Nat) : ℚ) = 100 * (roundToDouble d t).val := by
    rw [hval]
    push_cast
    ring
  rw [hab, abs_le] at e2
  unfold timesHundred
  generalize (roundToDouble ((roundToDouble d t).num * 100)
    (2 ^ (roundToDouble d t).exp)).val = x2 at e2 ⊢
  generalize (roundToDouble d t).val = x1 at e1 e2 hx1pos
  generalize (d : ℚ) / t = X at e1 hx ⊢
  have h1 : x1 ≤ X * (1 + 1 / 2 ^ 53) := by
    have := e1.2
    have e : X * (1 + 1 / 2 ^ 53) = X + X / 2 ^ 53 := by ring
    rw [e]
    linarith
  have h2 : x2 ≤ 100 * x1 * (1 + 1 / 2 ^ 53) := by
    have := e2.2
    have e : 100 * x1 * (1 + 1 / 2 ^ 53) = 100 * x1 + 100 * x1 / 2 ^ 53 := by ring
    rw [e]
    linarith
  have hpos : (0 : ℚ) < 1 + 1 / 2 ^ 53 := by positivity
  calc x2 ≤ 100 * x1 * (1 + 1 / 2 ^ 53) := h2
    _ ≤ 100 * (X * (1 + 1 / 2 ^ 53)) * (1 + 1 / 2 ^ 53) := by
        apply mul_le_mul_of_nonneg_right _ (le_of_lt hpos)
        linarith
    _ = 100 * X * (1 + 1 / 2 ^ 53) ^ 2 := by ring

/-- The completion percentage is at most 100 when the donated count is at most the total. -/
theorem completionPct_le_hundred (d t p : Nat) (hdt : d ≤ t)
    (hp : completionPct d t = some p) : p ≤ 100 := by
  unfold completionPct at hp
  split at hp
  · rename_i ht
    have ht' : 0 < t := ht
    cases hp
    rcases Nat.eq_zero_or_pos d with hd | hd
    · subst hd
      have e : mathRound (timesHundred (divide 0 t)) = 0 := by
        simp [divide, timesHundred, roundToDouble, mathRound]
      rw [e]
      exact Nat.zero_le _
    · have hle := timesHundred_divide_le d t hd ht'
      obtain ⟨f1, -⟩ := mathRound_floor (timesHundred (divide d t))
      generalize (timesHundred (divide d t)).val = x2 at hle f1
      generalize mathRound (timesHundred (divide d t)) = q at f1 ⊢
      have htq : (0 : ℚ) < t := by exact_mod_cast ht'
      have hX : (d : ℚ) / t ≤ 1 := by
        rw [div_le_one htq]
        exact_mod_cast hdt
      have hX0 : (0 : ℚ) ≤ (d : ℚ) / t := div_nonneg (Nat.cast_nonneg _) (le_of_lt htq)
      have hsq : (0 : ℚ) ≤ (1 + 1 / 2 ^ 53) ^ 2 := by positivity
      have hb : 100 * ((d : ℚ) / t) * (1 + 1 / 2 ^ 53) ^ 2 ≤ 100 * (1 + 1 / 2 ^ 53) ^ 2 := by
        apply mul_le_mul_of_nonneg_right _ hsq
        linarith
      have hc : (100 : ℚ) * (1 + 1 / 2 ^ 53) ^ 2 + 1 / 2 < 101 := by norm_num
      have hq : (q : ℚ) < 101 := by linarith
      have : q < 101 := by exact_mod_cast hq
      omega
  · cases hp

theorem reconcileItem_unique_eq (all : List JsString) (mc : MappedCat) (r : Reconciliation)
    (it : JsVal) :
    (reconcileItem all mc r it).uniqueDatasetItems =
      setAdd r.uniqueDatasetItems (normalizeName it) := by
  unfold reconcileItem setAdd
  by_cases h1 : normalizeName it ∈ r.uniqueDatasetItems <;>
    by_cases h2 : normalizeName it ∈ all <;>
    by_cases h3 : mc.text ++ js "|" ++ normalizeName it ∈ r.seenMissing <;>
    simp only [h1, h2, h3, if_true, if_false]

theorem foldl_reconcileItem_unique (all : List JsString) (mc : MappedCat) (l : List JsVal)
    (r : Reconciliation) :
    (l.foldl (reconcileItem all mc) r).uniqueDatasetItems =
      (l.map normalizeName).foldl setAdd r.uniqueDatasetItems := by
  induction l generalizing r with
  | nil => rfl
  | cons it l ih =>
    rw [List.foldl_cons, ih, reconcileItem_unique_eq]
    rfl

theorem foldl_reconcileCategory_unique_eq (all : List JsString) (cat : Catalog)
    (r : Reconciliation) :
    (cat.foldl (reconcileCategory all) r).uniqueDatasetItems =
      (countedKeys cat).foldl setAdd r.uniqueDatasetItems := by
  induction cat generalizing r with
  | nil => rfl
  | cons e cat ih =>
    rw [List.foldl_cons, ih]
    unfold countedKeys
    rw [List.flatMap_cons, List.foldl_append]
    congr 1
    unfold reconcileCategory
    cases lookupTargetCat e.1 with
    | none => rfl
    | some mc => exact foldl_reconcileItem_unique all mc _ r

/-- The size of `uniqueDatasetItems` is the number of distinct keys among the items the loop
visits. -/
theorem reconcile_unique_counted (all : List JsString) (cat : Catalog) :
    (reconcile all cat).uniqueDatasetItems.length = (countedKeys cat).dedup.length := by
  unfold reconcile
  rw [foldl_reconcileCategory_unique_eq]
  obtain ⟨h1, h2⟩ := foldl_setAdd (countedKeys cat) [] List.nodup_nil
  apply List.Perm.length_eq
  rw [show Reconciliation.init.uniqueDatasetItems = [] from rfl,
    List.perm_ext_iff_of_nodup h1 (List.nodup_dedup _)]
  intro x
  rw [h2, List.mem_dedup]
  simp

/-- In a dataset none of whose category names is inherited from `Object.prototype` the loop
visits the items of the allow-listed categories. -/
theorem countedKeys_eq_specPairs (cat : Catalog) (h : ∀ e ∈ cat, e.1 ∉ objectPrototypeKeys) :
    countedKeys cat = (specPairs cat).map fun p => normalizeName p.2 := by
  induction cat with
  | nil => rfl
  | cons e cat ih =>
    have ih := ih fun e' he' => h e' (List.mem_cons_of_mem _ he')
    have he := h e (List.mem_cons_self _ _)
    rw [specPairs_cons, List.map_append, ← ih]
    unfold countedKeys
    rw [List.flatMap_cons]
    congr 1
    unfold specPairs
    simp only [List.flatMap_cons, List.flatMap_nil, List.append_nil]
    cases hl : allowList.lookup e.1 with
    | some m =>
      rw [lookupTargetCat_of_allowList _ _ hl]
      simp [List.map_map, Function.comp]
    | none =>
      have : lookupTargetCat e.1 = none := by
        unfold lookupTargetCat
        rw [show targetCatsMap = allowList from rfl, hl]
        simp [he]
      rw [this]
      rfl

/-- The double that `Math.round` rounds falls short of the exact `100 * d / t` by a factor of at
most `(1 - 2 ^ -53) ^ 2`. -/
theorem timesHundred_divide_ge (d t : Nat) (hd : 0 < d) (ht : 0 < t) :
    100 * ((d : ℚ) / t) * (1 - 1 / 2 ^ 53) ^ 2 ≤ (timesHundred (divide d t)).val := by
  have e1 := roundToDouble_err d t hd ht
  have hdq : (0 : ℚ) < d := by exact_mod_cast hd
  have htq : (0 : ℚ) < t := by exact_mod_cast ht
  have hx : (0 : ℚ) < (d : ℚ) / t := div_pos hdq htq
  rw [abs_le] at e1
  unfold divide at *
  have hval : (roundToDouble d t).val =
      ((roundToDouble d t).num : ℚ) / 2 ^ (roundToDouble d t).exp := rfl
  have hx1pos : 0 < (roundToDouble d t).val := by
    have : (d : ℚ) / t / 2 ^ 53 < (d : ℚ) / t := by
      rw [div_lt_iff₀ (by norm_num)]
      nlinarith
    linarith [e1.1]
  have hP : (0 : ℚ) < 2 ^ (roundToDouble d t).exp := pow_pos (by norm_num) _
  have hnum : 0 < (roundToDouble d t).num := by
    rw [hval] at hx1pos
    have h0 : (0 : ℚ) < ((roundToDouble d t).num : ℚ) := by
      by_contra hc
      have hle : ((roundToDouble d t).num : ℚ) ≤ 0 := not_lt.1 hc
      have := div_nonpos_of_nonpos_of_nonneg hle (le_of_lt hP)
      linarith
    exact_mod_cast h0
  have e2 := roundToDouble_err ((roundToDouble d t).num * 100) (2 ^ (roundToDouble d t).exp)
    (Nat.mul_pos hnum (by norm_num)) (pow_pos (by norm_num) _)
  have hab : (((roundToDouble d t).num * 100 : Nat) : ℚ) /
      ((2 ^ (roundToDouble d t).exp : Nat) : ℚ) = 100 * (roundToDouble d t).val := by
    rw [hval]
    push_cast
    ring
  rw [hab, abs_le] at e2
  unfold timesHundred
  generalize (roundToDouble ((roundToDouble d t).num * 100)
    (2 ^ (roundToDouble d t).exp)).val = x2 at e2 ⊢
  generalize (roundToDouble d t).val = x1 at e1 e2 hx1pos
  generalize (d : ℚ) / t = X at e1 hx ⊢
  have h1 : X * (1 - 1 / 2 ^ 53) ≤ x1 := by
    have := e1.1
    have e : X * (1 - 1 / 2 ^ 53) = X - X / 2 ^ 53 := by ring
    rw [e]
    linarith
  have h2 : 100 * x1 * (1 - 1 / 2 ^ 53) ≤ x2 := by
    have := e2.1
    have e : 100 * x1 * (1 - 1 / 2 ^ 53) = 100 * x1 - 100 * x1 / 2 ^ 53 := by ring
    rw [e]
    linarith
  have hpos : (0 : ℚ) < 1 - 1 / 2 ^ 53 := by norm_num
  calc 100 * X * (1 - 1 / 2 ^ 53) ^ 2 = 100 * (X * (1 - 1 / 2 ^ 53)) * (1 - 1 / 2 ^ 53) := by ring
    _ ≤ 100 * x1 * (1 - 1 / 2 ^ 53) := by
        apply mul_le_mul_of_nonneg_right _ (le_of_lt hpos)
        linarith
    _ ≤ x2 := h2

/-- The completion percentage is at least 100 when the donated count is at least the total. -/
theorem completionPct_ge_hundred (d t p : Nat) (htd : t ≤ d)
    (hp : completionPct d t = some p) : 100 ≤ p := by
  unfold completionPct at hp
  split at hp
  · rename_i ht
    have ht' : 0 < t := ht
    cases hp
    have hd : 0 < d := Nat.lt_of_lt_of_le ht' htd
    have hge := timesHundred_divide_ge d t hd ht'
    obtain ⟨-, f2⟩ := mathRound_floor (timesHundred (divide d t))
    generalize (timesHundred (divide d t)).val = x2 at hge f2
    generalize mathRound (timesHundred (divide d t)) = q at f2 ⊢
    have htq : (0 : ℚ) < t := by exact_mod_cast ht'
    have hX : 1 ≤ (d : ℚ) / t := by
      rw [le_div_iff₀ htq, one_mul]
      exact_mod_cast htd
    have hsq : (0 : ℚ) ≤ (1 - 1 / 2 ^ 53) ^ 2 := by positivity
    have hb : 100 * (1 - 1 / 2 ^ 53) ^ 2 ≤ 100 * ((d : ℚ) / t) * (1 - 1 / 2 ^ 53) ^ 2 := by
      apply mul_le_mul_of_nonneg_right _ hsq
      linarith
    have hc : (99 : ℚ) + 1 / 2 < 100 * (1 - 1 / 2 ^ 53) ^ 2 := by norm_num
    have hq : (99 : ℚ) < q := by linarith
    have : 99 < q := by exact_mod_cast hq
    omega
  · cases hp

/-- C13, as amended. In every response `counts.donated` is the extractor's raw count and, with
`t` the number of distinct keys among the items the reconciliation visits (the items of the
allow-listed categories, for a dataset without a category name inherited from
`Object.prototype`): when `t` is 0, `counts.total` and `counts.completionPct` are both `null`;
otherwise `counts.total` is `t` and `counts.completionPct` is the non-negative integer
`Math.round` gives for the double `donated / t * 100`, which is at most 100 whenever the donated
count is at most `t` and at least 100 whenever the donated count is at least `t`. -/
theorem completionPct_range (cat : Catalog) (al : AliasMap) (mj : MuseumJson)
    (uuid : JsString) (r : Response) (h : museumResponse cat al mj uuid = .ok r) :
    r.counts.donated = countedSlots mj uuid ∧
    ∃ t, t = (countedKeys cat).dedup.length ∧
      ((∀ e ∈ cat, e.1 ∉ objectPrototypeKeys) →
        t = ((specPairs cat).map fun q => normalizeName q.2).dedup.length) ∧
      ((t = 0 ∧ r.counts.total = none ∧ r.counts.completionPct = none) ∨
       (0 < t ∧ r.counts.total = some t ∧
        ∃ p, r.counts.completionPct = some p ∧
          p = mathRound (timesHundred (divide r.counts.donated t)) ∧
          (r.counts.donated ≤ t → p ≤ 100) ∧ (t ≤ r.counts.donated → 100 ≤ p))) := by
  obtain ⟨d, hd, rfl⟩ := museumResponse_ok cat al mj uuid r h
  have hlen := reconcile_unique_counted d.donatedAll cat
  refine ⟨(extractDonations_ok al mj uuid d hd).1, _, hlen, fun hcat => ?_, ?_⟩
  · rw [hlen, countedKeys_eq_specPairs cat hcat]
  by_cases hpos : 0 < (reconcile d.donatedAll cat).uniqueDatasetItems.length
  · right
    have hp : completionPct d.donatedCount
        (reconcile d.donatedAll cat).uniqueDatasetItems.length =
        some (mathRound (timesHundred (divide d.donatedCount
          (reconcile d.donatedAll cat).uniqueDatasetItems.length))) := by
      unfold completionPct
      rw [if_pos hpos]
    refine ⟨hpos, ?_, _, hp, rfl, fun hle => completionPct_le_hundred _ _ _ hle hp,
      fun hge => completionPct_ge_hundred _ _ _ hge hp⟩
    show (if _ then _ else _) = _
    rw [if_pos hpos]
  · left
    refine ⟨by omega, ?_, ?_⟩
    · show (if _ then _ else _) = _
      rw [if_neg hpos]
    · show completionPct _ _ = _
      unfold completionPct
      rw [if_neg hpos]

/-- C13, an instance: one donated entry against two dataset items gives 50. -/
theorem completionPct_range_witness :
    museumResponse (weaponsCatalog ["Sword A", "Sword B"]) []
        (memberPayload [nameEntry (js "Sword A")]) (js "u") =
      .ok { categories := [js "w"], counts := ⟨1, some 2, some 50⟩,
            missing := [⟨.canonical (js "Weapons"), .str (js "Sword B")⟩], hints := [] } ∧
    (1 = countedSlots (memberPayload [nameEntry (js "Sword A")]) (js "u") ∧
     ∃ t, t = (countedKeys (weaponsCatalog ["Sword A", "Sword B"])).dedup.length ∧
      ((∀ e ∈ weaponsCatalog ["Sword A", "Sword B"], e.1 ∉ objectPrototypeKeys) →
        t = ((specPairs (weaponsCatalog ["Sword A", "Sword B"])).map
          fun q => normalizeName q.2).dedup.length) ∧
      ((t = 0 ∧ some 2 = none ∧ some 50 = none) ∨
       (0 < t ∧ some 2 = some t ∧
        ∃ p, some 50 = some p ∧ p = mathRound (timesHundred (divide 1 t)) ∧
          (1 ≤ t → p ≤ 100) ∧ (t ≤ 1 → 100 ≤ p)))) :=
  ⟨by decide,
   completionPct_range (weaponsCatalog ["Sword A", "Sword B"]) []
     (memberPayload [nameEntry (js "Sword A")]) (js "u")
     { categories := [js "w"], counts := ⟨1, some 2, some 50⟩,
       missing := [⟨.canonical (js "Weapons"), .str (js "Sword B")⟩], hints := [] }
     (by decide)⟩

set_option maxRecDepth 100000 in
/-- A donated count above the total does not always give more than 100: 202 donated entries
against 201 items give 100. -/
theorem completionPct_not_above : completionPct 202 201 = some 100 ∧ completionPct 3 1 = some 300 := by
  decide

/-- C13 as stated fails: three donated entries against a dataset of one item give a completion
percentage of 300. -/
theorem completionPct_above_hundred :
    museumResponse (weaponsCatalog ["Sword A"]) []
        (memberPayload [nameEntry (js "Sword A"), nameEntry (js "Sword A"),
          nameEntry (js "Shield")]) (js "u") =
      .ok { categories := [js "w"], counts := ⟨3, some 1, some 300⟩, missing := [],
            hints := [] } := by
  decide

/-! ## Colour codes and the two normalisers (C14, C15) -/

/-- C14, the failing input. In both source files the expression that is meant to strip colour
codes consists of the two characters U+0E22 and U+0E07 (what the bytes of "§" become when they
are read in a Thai code page) followed by `.`, so it never matches the marker "§" (U+00A7):
"§6Sword" normalises to "6sword", not to "sword", in the server and in the wiki parser. What
is stripped is a code written with the two Thai characters. -/
theorem normalizeName_keeps_section_sign_code :
    js "§" = [0xA7] ∧
    normalizeName (.str (js "§6Sword")) = js "6sword" ∧
    ParseWiki.normalizeName (js "§6Sword") = js "6sword" ∧
    normalizeName (.str (js "Sword")) = js "sword" ∧
    normalizeName (.str ([0x0E22, 0x0E07] ++ js "6Sword")) = js "sword" := by
  decide

/-- C15. The `normalizeName` of the wiki parser, which writes the keys of the alias table, and
the `normalizeName` of the server, which looks them up, compute the same function on strings. -/
theorem parser_normalizeName_eq_server (s : JsString) :
    ParseWiki.normalizeName s = normalizeName (.str s) := by
  cases s with
  | nil => rfl
  | cons a t =>
    have hcanon := normalizeName_is_canonical (.str (a :: t))
    have hserver : normalizeName (.str (a :: t)) =
        trim (replaceRuns isSep false (stripColorCodes (toLowerCase (a :: t)))) := by
      simp only [normalizeName, List.isEmpty_cons, Bool.false_eq_true, if_false]
      rw [replaceRuns_fused _ false false (by simp)]
    rw [hserver] at hcanon ⊢
    show replaceRuns isWhiteSpace false
      (trim (replaceRuns isSep false (stripColorCodes (toLowerCase (a :: t))))) = _
    exact replaceRuns_ws_of_canonical false _ hcanon.1 hcanon.2.2.2 (by simp)

theorem toLowerCase_append (a b : JsString) :
    toLowerCase (a ++ b) = toLowerCase a ++ toLowerCase b := by
  simp [toLowerCase, List.flatMap_append]

theorem toLowerCase_no_marker (a : JsString) (h : 0x0E22 ∉ a) : 0x0E22 ∉ toLowerCase a := by
  induction a with
  | nil => simp [toLowerCase]
  | cons x t ih =>
    have hx : x ≠ 0x0E22 := fun e => h (e ▸ List.mem_cons_self _ _)
    have ht : 0x0E22 ∉ t := fun e => h (List.mem_cons_of_mem _ e)
    have hcons : toLowerCase (x :: t) = lowerUnit x ++ toLowerCase t := by
      simp [toLowerCase]
    rw [hcons, List.mem_append]
    rintro (hm | hm)
    · unfold lowerUnit at hm
      split at hm
      · simp only [List.mem_singleton] at hm
        omega
      · split at hm
        · simp at hm
        · split at hm
          · simp at hm
          · simp only [List.mem_singleton] at hm
            exact hx hm.symm
    · exact ih ht hm

/-- A match of the colour-code expression that starts after a prefix without U+0E22 is removed,
and the prefix is kept. -/
theorem stripFrom_prefix (a rest : JsString) (h : 0x0E22 ∉ a) :
    stripFrom 0 (a ++ rest) = a ++ stripFrom 0 rest := by
  induction a with
  | nil => rfl
  | cons x t ih =>
    have hx : x ≠ 0x0E22 := fun e => h (e ▸ List.mem_cons_self _ _)
    have ht : 0x0E22 ∉ t := fun e => h (List.mem_cons_of_mem _ e)
    have hcc : colorCodeAt (x :: (t ++ rest)) = false := by
      have hx2 : (x == 0x0E22) = false := by simpa using hx
      match t ++ rest with
      | [] => rfl
      | [_] => rfl
      | _ :: _ :: _ => simp [colorCodeAt, hx2]
    rw [List.cons_append, stripFrom, hcc, ih ht]
    simp

/-- What the code strips: a code written with the two characters U+0E22 U+0E07 and an ASCII
letter or digit, after a prefix that does not contain U+0E22. -/
theorem normalizeName_strips_thai_code (a b : JsString) (c : Nat) (ha : 0x0E22 ∉ a)
    (hc : (48 ≤ c ∧ c ≤ 57) ∨ (65 ≤ c ∧ c ≤ 90) ∨ (97 ≤ c ∧ c ≤ 122)) :
    normalizeName (.str (a ++ [0x0E22, 0x0E07, c] ++ b)) = normalizeName (.str (a ++ b)) := by
  have hla := toLowerCase_no_marker a ha
  obtain ⟨c', hc', hlt⟩ : ∃ c', lowerUnit c = [c'] ∧ isLineTerminator c' = false := by
    unfold lowerUnit
    by_cases h1 : 65 ≤ c ∧ c ≤ 90
    · refine ⟨c + 32, by rw [if_pos h1], ?_⟩
      simp only [isLineTerminator, Bool.or_eq_false_iff, beq_eq_false_iff_ne]
      omega
    · refine ⟨c, by rw [if_neg h1, if_neg (by omega), if_neg (by omega)], ?_⟩
      simp only [isLineTerminator, Bool.or_eq_false_iff, beq_eq_false_iff_ne]
      omega
  have hmark : toLowerCase [0x0E22, 0x0E07, c] = [0x0E22, 0x0E07, c'] := by
    have l1 : lowerUnit 0x0E22 = [0x0E22] := by decide
    have l2 : lowerUnit 0x0E07 = [0x0E07] := by decide
    simp only [toLowerCase, List.flatMap_cons, List.flatMap_nil, l1, l2, hc']
    rfl
  have hstrip : stripColorCodes (toLowerCase (a ++ [0x0E22, 0x0E07, c] ++ b)) =
      stripColorCodes (toLowerCase (a ++ b)) := by
    unfold stripColorCodes
    rw [List.append_assoc, toLowerCase_append, toLowerCase_append, hmark, toLowerCase_append,
      stripFrom_prefix _ _ hla, stripFrom_prefix _ _ hla]
    congr 1
    simp [stripFrom, colorCodeAt, hlt]
  have hne : (a ++ [0x0E22, 0x0E07, c] ++ b).isEmpty = false := by
    cases a <;> simp
  simp only [normalizeName, hne, Bool.false_eq_true, if_false, hstrip]
  split
  · rename_i he
    have hab : a ++ b = [] := List.isEmpty_iff.1 he
    rw [hab]
    rfl
  · rfl

/-! ## The completion percentage (C3) -/

/-- C3, as amended. Whenever the allow-listed dataset has at least one item, `counts.donated` is
the extractor's raw count, `counts.total` is the positive number `t` of distinct keys among the
items the reconciliation visits, which for a dataset without a category name inherited from
`Object.prototype` are the items of the allow-listed categories, and `counts.completionPct` is
`Math.round` of the double-precision value of `donated / t * 100`. For a donated count below
`2 ^ 43` that value is never above the exact nearest integer to `100 * donated / t` (ties up),
at most one below it, and equal to it unless `100 * donated / t` lies exactly half way between
two integers. -/
theorem completionPct_rounds (cat : Catalog) (al : AliasMap) (mj : MuseumJson)
    (uuid : JsString) (r : Response) (hitem : specPairs cat ≠ [])
    (h : museumResponse cat al mj uuid = .ok r) :
    r.counts.donated = countedSlots mj uuid ∧
    ∃ t p, t = (countedKeys cat).dedup.length ∧
      ((∀ e ∈ cat, e.1 ∉ objectPrototypeKeys) →
        t = ((specPairs cat).map fun q => normalizeName q.2).dedup.length) ∧
      0 < t ∧ r.counts.total = some t ∧ r.counts.completionPct = some p ∧
      p = mathRound (timesHundred (divide r.counts.donated t)) ∧
      (r.counts.donated < 2 ^ 43 →
        p ≤ exactRound r.counts.donated t ∧ exactRound r.counts.donated t ≤ p + 1 ∧
        ((200 * r.counts.donated + t) % (2 * t) ≠ 0 → p = exactRound r.counts.donated t)) := by
  obtain ⟨d, hd, rfl⟩ := museumResponse_ok cat al mj uuid r h
  have hpos := reconcile_unique d.donatedAll cat hitem
  have hlen := reconcile_unique_counted d.donatedAll cat
  refine ⟨(extractDonations_ok al mj uuid d hd).1, ?_⟩
  have hp : completionPct d.donatedCount (reconcile d.donatedAll cat).uniqueDatasetItems.length =
      some (mathRound (timesHundred (divide d.donatedCount
        (reconcile d.donatedAll cat).uniqueDatasetItems.length))) := by
    unfold completionPct
    rw [if_pos hpos]
  refine ⟨_, _, hlen, fun hcat => ?_, hpos, ?_, hp, rfl, fun hsmall => ?_⟩
  · rw [hlen, countedKeys_eq_specPairs cat hcat]
  · show (if _ then _ else _) = _
    rw [if_pos hpos]
  · obtain ⟨p, hp', h1, h2, h3⟩ :=
      completionPct_near d.donatedCount (reconcile d.donatedAll cat).uniqueDatasetItems.length
        hpos hsmall
    rw [hp] at hp'
    cases hp'
    exact ⟨h1, h2, h3⟩

/-- C3, the instance of the specification: the dataset `{Weapons: ["Sword A", "Sword B"]}` and
a player whose only donated entry is "Sword A"; a third item "sword_a", which has the key of the
first, leaves the total at 2. -/
theorem completionPct_rounds_witness :
    specPairs (weaponsCatalog ["Sword A", "Sword B"]) ≠ [] ∧
    museumResponse (weaponsCatalog ["Sword A", "Sword B"]) []
        (memberPayload [nameEntry (js "Sword A")]) (js "u") =
      .ok { categories := [js "w"], counts := ⟨1, some 2, some 50⟩,
            missing := [⟨.canonical (js "Weapons"), .str (js "Sword B")⟩], hints := [] } ∧
    (museumResponse (weaponsCatalog ["Sword A", "sword_a", "Sword B"]) []
        (memberPayload [nameEntry (js "Sword A")]) (js "u")).map (fun r => r.counts) =
      .ok ⟨1, some 2, some 50⟩ ∧
    (1 = countedSlots (memberPayload [nameEntry (js "Sword A")]) (js "u") ∧
     ∃ t p, t = (countedKeys (weaponsCatalog ["Sword A", "Sword B"])).dedup.length ∧
      ((∀ e ∈ weaponsCatalog ["Sword A", "Sword B"], e.1 ∉ objectPrototypeKeys) →
        t = ((specPairs (weaponsCatalog ["Sword A", "Sword B"])).map
          fun q => normalizeName q.2).dedup.length) ∧
      0 < t ∧ some 2 = some t ∧ some 50 = some p ∧
      p = mathRound (timesHundred (divide 1 t)) ∧
      (1 < 2 ^ 43 →
        p ≤ exactRound 1 t ∧ exactRound 1 t ≤ p + 1 ∧
        ((200 * 1 + t) % (2 * t) ≠ 0 → p = exactRound 1 t))) :=
  ⟨by decide, by decide, by decide,
   completionPct_rounds (weaponsCatalog ["Sword A", "Sword B"]) []
     (memberPayload [nameEntry (js "Sword A")]) (js "u")
     { categories := [js "w"], counts := ⟨1, some 2, some 50⟩,
       missing := [⟨.canonical (js "Weapons"), .str (js "Sword B")⟩], hints := [] }
     (by decide) (by decide)⟩

set_option maxRecDepth 100000 in
/-- C3 as stated fails: with 23 donated entries and 40 dataset items the exact value
`23 / 40 * 100 = 57.5` rounds to 58, but the response has `completionPct = 57`. The double
nearest to `23 / 40` is `5179139571476070 / 2 ^ 53`, just below 0.575; its product with 100 is
rounded to the double `8092405580431359 / 2 ^ 47 = 57.49999999999999...`, one unit in the last
place below 57.5. -/
theorem completionPct_below_exact :
    (museumResponse fortyItems [] twentyThreeEntries (js "u")).map (fun r => r.counts) =
      .ok ⟨23, some 40, some 57⟩ ∧
    exactRound 23 40 = 58 ∧ (200 * 23 + 40) % (2 * 40) = 0 ∧
    divide 23 40 = ⟨5179139571476070, 53⟩ ∧
    timesHundred (divide 23 40) = ⟨8092405580431359, 47⟩ ∧
    2 * 8092405580431359 + 2 = 115 * 2 ^ 47 := by
  decide

/-! ## `normalizeName` on every value of JSON (C7) -/

/-- On `null` and on strings the embedding for every value of JSON is the embedding used
throughout. -/
theorem normalizeName_json_str (s : JsString) :
    JsonValue.normalizeName .null = .ok (normalizeName .null) ∧
    JsonValue.normalizeName (.str s) = .ok (normalizeName (.str s)) := by
  refine ⟨rfl, ?_⟩
  cases s with
  | nil => rfl
  | cons a t => rfl

/-- Whatever `normalizeName` returns is the key of a string. -/
theorem normalizeName_json_ok (v : JsonValue) (r : JsString)
    (h : JsonValue.normalizeName v = .ok r) : ∃ s, r = normalizeName (.str s) := by
  unfold JsonValue.normalizeName at h
  split at h
  · cases h
    exact ⟨[], rfl⟩
  · cases hs : stringOf v with
    | error e =>
      rw [hs] at h
      cases h
    | ok s =>
      rw [hs] at h
      cases h
      refine ⟨s, ?_⟩
      cases s with
      | nil => rfl
      | cons a t => rfl

/-- Whatever `normalizeName` returns is in canonical form. -/
theorem normalizeName_json_canonical (v : JsonValue) (r : JsString)
    (h : JsonValue.normalizeName v = .ok r) : Canonical r := by
  obtain ⟨s, rfl⟩ := normalizeName_json_ok v r h
  exact normalizeName_is_canonical _

theorem textsOf_cons (x : JsonValue) (rest : List JsonValue) (hx : x ≠ .null) :
    textsOf (x :: rest) =
      match stringOf x with
      | .error e => .error e
      | .ok s => (textsOf rest).map fun texts => s :: texts := by
  cases x <;> first | exact absurd rfl hx | simp only [textsOf]

mutual
theorem stringOf_eq (v : JsonValue) :
    if blocked v then stringOf v = .error .typeError else ∃ s, stringOf v = .ok s := by
  cases v with
  | null => exact ⟨_, rfl⟩
  | bool b => exact ⟨_, rfl⟩
  | num t => exact ⟨_, rfl⟩
  | str s => exact ⟨_, rfl⟩
  | arr items =>
    have := textsOf_eq items
    simp only [blocked, stringOf]
    split
    · rename_i hb
      rw [if_pos hb] at this
      rw [this]
      rfl
    · rename_i hb
      rw [if_neg hb] at this
      obtain ⟨ts, hts⟩ := this
      rw [hts]
      exact ⟨_, rfl⟩
  | obj props =>
    simp only [blocked, stringOf]
    split
    · rfl
    · exact ⟨_, rfl⟩
theorem textsOf_eq (l : List JsonValue) :
    if anyBlocked l then textsOf l = .error .typeError else ∃ ts, textsOf l = .ok ts := by
  cases l with
  | nil => exact ⟨_, rfl⟩
  | cons x rest =>
    have h1 := stringOf_eq x
    have h2 := textsOf_eq rest
    by_cases hx : x = .null
    · subst hx
      simp only [anyBlocked, blocked, textsOf, Bool.false_or] at h2 ⊢
      split
      · rename_i hb
        rw [if_pos hb] at h2
        rw [h2]
        rfl
      · rename_i hb
        rw [if_neg hb] at h2
        obtain ⟨ts, hts⟩ := h2
        rw [hts]
        exact ⟨_, rfl⟩
    · rw [textsOf_cons x rest hx]
      simp only [anyBlocked, Bool.or_eq_true]
      by_cases hb : blocked x = true
      · rw [if_pos hb] at h1
        rw [if_pos (Or.inl hb), h1]
      · rw [if_neg hb] at h1
        obtain ⟨s, hs⟩ := h1
        rw [hs]
        by_cases hr : anyBlocked rest = true
        · rw [if_pos hr] at h2
          rw [if_pos (Or.inr hr), h2]
          rfl
        · rw [if_neg hr] at h2
          obtain ⟨ts, hts⟩ := h2
          rw [if_neg (by tauto), hts]
          exact ⟨_, rfl⟩
end

/-- The inputs `normalizeName` throws for are the truthy values that `String` cannot convert;
for every other value it returns a key in canonical form. -/
theorem normalizeName_json_cases (v : JsonValue) :
    if blocked v then JsonValue.normalizeName v = .error .typeError
    else ∃ r, JsonValue.normalizeName v = .ok r := by
  have h := stringOf_eq v
  unfold JsonValue.normalizeName
  split
  · rename_i hb
    rw [if_pos hb] at h
    have ht : v.truthy = true := by
      cases v <;> first | rfl | simp [blocked] at hb
    rw [ht, h]
    rfl
  · rename_i hb
    rw [if_neg hb] at h
    obtain ⟨s, hs⟩ := h
    rw [hs]
    split
    · exact ⟨_, rfl⟩
    · exact ⟨_, rfl⟩

/-- C7, the failing input. `normalizeName` is not total: for the JSON value `{"toString": 1}`,
which is truthy, `String(name)` on line 12 throws a `TypeError`, and so it does for every object
with an own property `toString` and for an array that holds one. Such a value reaches
`normalizeName` as the `name` of a donated entry (lines 172 and 184) or as an item of the
dataset (line 216). -/
theorem normalizeName_throws_on_own_toString :
    JsonValue.normalizeName (.obj [(js "toString", .num (js "1"))]) = .error .typeError ∧
    JsonValue.normalizeName (.arr [.obj [(js "toString", .num (js "1"))]]) = .error .typeError ∧
    ∀ (v : JsonValue) (props : List (JsString × JsonValue)),
      JsonValue.normalizeName (.obj ((js "toString", v) :: props)) = .error .typeError := by
  refine ⟨by decide, by decide, fun v props => ?_⟩
  simp [JsonValue.normalizeName, JsonValue.truthy, stringOf, Except.map]

end Museum
